import Mathlib

/-!
Verification of the framed multiplexing protocol and serialized request
pipeline of the ship/offshore proxy pair (`ship_proxy.py`, `offshore_server.py`).

The wire codec (`send_message` / `read_message`) frames a JSON header dict
behind a 4-byte big-endian length prefix, followed by `body_len` payload
bytes.  We embed the byte-level behaviour of the Python code:

* headers are modelled by `Header`, an insertion-ordered association list
  of string keys to `JVal` values (string, non-negative integer, or a
  string-to-string object) — exactly the shapes the two programs put in
  frame headers;
* `dumps` reproduces `json.dumps` with its default separators and
  `ensure_ascii` escaping (so its output is pure ASCII);
* `loads` reproduces the `hjson.decode()` + `json.loads` step: UTF-8
  decoding followed by a JSON parse building a dict.  Shapes the protocol
  can never produce (floats, negative numbers, booleans, null, lone
  surrogates) are modelled as parse failures, and a non-object top-level
  value is folded into decode failure because both callers immediately
  treat the result as a dict (`.get` raises otherwise);
* byte streams are finite lists of natural numbers; hitting the end of the
  list is end-of-stream, which `read_exact` turns into `EOFError`
  (modelled as `RErr.linkClosed`).
-/

set_option maxHeartbeats 1000000
set_option maxRecDepth 2000

/-- JSON value shapes that appear in protocol headers: strings, non-negative
integers, and flat string-to-string objects (the `headers` field). -/
inductive JVal where
  | s (v : String)
  | n (v : Nat)
  | o (kvs : List (String × String))
deriving DecidableEq, Repr

/-- A frame header: the insertion-ordered key/value dict built by the Python
code and serialized by `json.dumps`. -/
abbrev Header := List (String × JVal)

/-- Python `dict.get`: first (= only, for a real dict) binding of a key. -/
def hget (h : Header) (k : String) : Option JVal :=
  (h.find? (fun kv => kv.1 == k)).map (fun kv => kv.2)

/-- Lowercase hex digit, as produced by `json.dumps` in a `\uXXXX` escape. -/
def hexDig (d : Nat) : Nat := if d < 10 then 48 + d else 87 + d

/-- Four lowercase hex digits of a code unit below 0x10000. -/
def hex4 (n : Nat) : List Nat :=
  [hexDig (n / 4096 % 16), hexDig (n / 256 % 16), hexDig (n / 16 % 16), hexDig (n % 16)]

/-- `json.dumps` (`ensure_ascii=True`) escaping of one character:
`"` and `\` are backslash-escaped, the C0 shortcuts `\b \t \n \f \r` are
used, remaining characters outside printable ASCII become `\uXXXX`
(surrogate pairs above 0xFFFF). -/
def escapeChar (c : Char) : List Nat :=
  let n := c.toNat
  if n = 34 then [92, 34]
  else if n = 92 then [92, 92]
  else if n = 8 then [92, 98]
  else if n = 9 then [92, 116]
  else if n = 10 then [92, 110]
  else if n = 12 then [92, 102]
  else if n = 13 then [92, 114]
  else if n < 32 then 92 :: 117 :: hex4 n
  else if n < 127 then [n]
  else if n < 65536 then 92 :: 117 :: hex4 n
  else 92 :: 117 :: hex4 (55296 + (n - 65536) / 1024) ++ 92 :: 117 :: hex4 (56320 + (n - 65536) % 1024)

/-- Escape every character of a string body. -/
def escString : List Char → List Nat
  | [] => []
  | c :: t => escapeChar c ++ escString t

/-- A JSON string literal: quote, escaped body, quote. -/
def dumpStr (s : String) : List Nat := 34 :: escString s.data ++ [34]

/-- Fuel-driven core of `digitsOf`; the fuel is always at least `n`, so the
fuel-exhausted branch coincides with the base case. -/
def digitsOfAux : Nat → Nat → List Nat → List Nat
  | 0, n, acc => n % 10 :: acc
  | fuel + 1, n, acc =>
    if n < 10 then n :: acc else digitsOfAux fuel (n / 10) (n % 10 :: acc)

/-- Decimal digits of a natural number, most significant first. -/
def digitsOf (n : Nat) : List Nat := digitsOfAux n n []

/-- ASCII decimal rendering of a natural number (`repr` of a Python int). -/
def dumpNat (n : Nat) : List Nat := (digitsOf n).map (fun d => d + 48)

/-- Body of a nested string-to-string object, with the default
`", "` item separator and `": "` key separator of `json.dumps`. -/
def dumpInnerPairs : List (String × String) → List Nat
  | [] => []
  | [kv] => dumpStr kv.1 ++ 58 :: 32 :: dumpStr kv.2
  | kv :: rest => (dumpStr kv.1 ++ 58 :: 32 :: dumpStr kv.2) ++ 44 :: 32 :: dumpInnerPairs rest

/-- A nested object in braces. -/
def dumpInner (kvs : List (String × String)) : List Nat := 123 :: dumpInnerPairs kvs ++ [125]

/-- Serialization of one header value. -/
def dumpVal : JVal → List Nat
  | .s v => dumpStr v
  | .n v => dumpNat v
  | .o kvs => dumpInner kvs

/-- One `"key": value` item of the top-level header object. -/
def dumpPair (kv : String × JVal) : List Nat := dumpStr kv.1 ++ 58 :: 32 :: dumpVal kv.2

/-- Body of the top-level header object. -/
def dumpPairs : Header → List Nat
  | [] => []
  | [kv] => dumpPair kv
  | kv :: rest => dumpPair kv ++ 44 :: 32 :: dumpPairs rest

/-- `json.dumps(header).encode()`: the UTF-8 (here: pure ASCII) bytes of the
header object. -/
def dumps (h : Header) : List Nat := 123 :: dumpPairs h ++ [125]

/-- One UTF-8 multi-byte sequence: leading byte `b` of 128 or above plus its
continuation bytes, yielding the code point and the remaining input.
Truncated sequences, bad continuations, overlong encodings and surrogates are
rejected, as in strict `bytes.decode()`. -/
def utf8Multi (b : Nat) (rest : List Nat) : Option (Nat × List Nat) :=
  if 194 ≤ b ∧ b ≤ 223 then
    match rest with
    | b2 :: r =>
      if 128 ≤ b2 ∧ b2 ≤ 191 then some ((b - 192) * 64 + (b2 - 128), r)
      else none
    | [] => none
  else if 224 ≤ b ∧ b ≤ 239 then
    match rest with
    | b2 :: b3 :: r =>
      if (128 ≤ b2 ∧ b2 ≤ 191) ∧ (128 ≤ b3 ∧ b3 ≤ 191) ∧
          2048 ≤ (b - 224) * 4096 + (b2 - 128) * 64 + (b3 - 128) ∧
          ¬ (55296 ≤ (b - 224) * 4096 + (b2 - 128) * 64 + (b3 - 128) ∧
              (b - 224) * 4096 + (b2 - 128) * 64 + (b3 - 128) ≤ 57343) then
        some ((b - 224) * 4096 + (b2 - 128) * 64 + (b3 - 128), r)
      else none
    | _ => none
  else if 240 ≤ b ∧ b ≤ 244 then
    match rest with
    | b2 :: b3 :: b4 :: r =>
      if (128 ≤ b2 ∧ b2 ≤ 191) ∧ (128 ≤ b3 ∧ b3 ≤ 191) ∧ (128 ≤ b4 ∧ b4 ≤ 191) ∧
          65536 ≤ (b - 240) * 262144 + (b2 - 128) * 4096 + (b3 - 128) * 64 + (b4 - 128) ∧
          (b - 240) * 262144 + (b2 - 128) * 4096 + (b3 - 128) * 64 + (b4 - 128) < 1114112 then
        some ((b - 240) * 262144 + (b2 - 128) * 4096 + (b3 - 128) * 64 + (b4 - 128), r)
      else none
    | _ => none
  else none

/-- Strict UTF-8 decoding loop; `fuel` bounds the number of decoded
characters and is instantiated with the input length. -/
def decodeUtf8F : Nat → List Nat → Option (List Nat)
  | 0, l => match l with | [] => some [] | _ :: _ => none
  | fuel + 1, l =>
    match l with
    | [] => some []
    | b :: rest =>
      if b < 128 then (decodeUtf8F fuel rest).map (fun t => b :: t)
      else
        match utf8Multi b rest with
        | some (cp, r) => (decodeUtf8F fuel r).map (fun t => cp :: t)
        | none => none

/-- Strict UTF-8 decoding (`bytes.decode()`): bytes to code points. -/
def decodeUtf8 (l : List Nat) : Option (List Nat) := decodeUtf8F (l.length + 1) l

/-- JSON insignificant whitespace skipping. -/
def skipWs : List Nat → List Nat
  | [] => []
  | c :: rest => if c = 32 ∨ c = 9 ∨ c = 10 ∨ c = 13 then skipWs rest else c :: rest

/-- Value of one hex digit (both cases accepted, as in `json.loads`). -/
def hexVal (b : Nat) : Option Nat :=
  if 48 ≤ b ∧ b ≤ 57 then some (b - 48)
  else if 97 ≤ b ∧ b ≤ 102 then some (b - 87)
  else if 65 ≤ b ∧ b ≤ 70 then some (b - 55)
  else none

/-- Value of a 4-hex-digit escape. -/
def hexVal4 (a b c d : Nat) : Option Nat :=
  match hexVal a, hexVal b, hexVal c, hexVal d with
  | some x1, some x2, some x3, some x4 => some (((x1 * 16 + x2) * 16 + x3) * 16 + x4)
  | _, _, _, _ => none

/-- Prepend the character with code point `n` to a parse result.  Python
strings also admit lone surrogates; Lean characters do not, so such inputs
(which the serializer never emits) are modelled as parse failure. -/
def pushCp (n : Nat) (rec : Option (List Char × List Nat)) : Option (List Char × List Nat) :=
  if _h : n.isValidChar then rec.map (fun p => (Char.ofNat n :: p.1, p.2)) else none

/-- Decode one backslash escape (the bytes after the `\`): the code point it
denotes and the remaining input.  Covers the shortcut escapes, `\uXXXX`, and
surrogate-pair recombination of `json.loads`. -/
def escUnit : List Nat → Option (Nat × List Nat)
  | [] => none
  | e :: r =>
    if e = 34 then some (34, r)
    else if e = 92 then some (92, r)
    else if e = 47 then some (47, r)
    else if e = 98 then some (8, r)
    else if e = 102 then some (12, r)
    else if e = 110 then some (10, r)
    else if e = 114 then some (13, r)
    else if e = 116 then some (9, r)
    else if e = 117 then
      match r with
      | a :: b :: c2 :: d :: r2 =>
        (hexVal4 a b c2 d).bind (fun cp =>
          if 55296 ≤ cp ∧ cp ≤ 56319 then
            match r2 with
            | e1 :: e2 :: a2 :: b2 :: c3 :: d2 :: r3 =>
              if e1 = 92 ∧ e2 = 117 then
                (hexVal4 a2 b2 c3 d2).bind (fun cp2 =>
                  if 56320 ≤ cp2 ∧ cp2 ≤ 57343 then
                    some (65536 + (cp - 55296) * 1024 + (cp2 - 56320), r3)
                  else none)
              else none
            | _ => none
          else some (cp, r2))
      | _ => none
    else none

/-- Body of a JSON string literal after the opening quote: the scanner of
`json.loads` in strict mode.  `fuel` bounds the number of characters and is
instantiated with the input length, which each step strictly consumes. -/
def parseStrLoop : Nat → List Nat → Option (List Char × List Nat)
  | 0, _ => none
  | fuel + 1, l =>
    match l with
    | [] => none
    | c :: rest =>
      if c = 34 then some ([], rest)
      else if c = 92 then
        match escUnit rest with
        | some (cp, r2) => pushCp cp (parseStrLoop fuel r2)
        | none => none
      else if c < 32 then none
      else pushCp c (parseStrLoop fuel rest)

/-- A complete JSON string literal. -/
def parseJString : List Nat → Option (String × List Nat)
  | [] => none
  | c :: rest =>
    if c = 34 then (parseStrLoop (rest.length + 1) rest).map (fun p => (String.mk p.1, p.2))
    else none

/-- Greedy run of decimal digits, accumulating the value. -/
def digitsLoop (acc : Nat) : List Nat → Nat × List Nat
  | [] => (acc, [])
  | c :: rest =>
    if 48 ≤ c ∧ c ≤ 57 then digitsLoop (acc * 10 + (c - 48)) rest else (acc, c :: rest)

/-- After the integer part: a fraction or exponent would make the value a
float, which no header field of the protocol ever holds; modelled as parse
failure. -/
def numGuard (v : Nat) : List Nat → Option (Nat × List Nat)
  | [] => some (v, [])
  | c :: rest => if c = 46 ∨ c = 101 ∨ c = 69 then none else some (v, c :: rest)

/-- JSON number (the `0|[1-9][0-9]*` integer grammar of `json.loads`). -/
def parseNum : List Nat → Option (Nat × List Nat)
  | [] => none
  | c :: rest =>
    if c = 48 then numGuard 0 rest
    else if 49 ≤ c ∧ c ≤ 57 then
      numGuard (digitsLoop (c - 48) rest).1 (digitsLoop (c - 48) rest).2
    else none

/-- Python dict insertion: an existing key keeps its position and takes the
new value, a new key is appended. -/
def dictInsert {α : Type} : List (String × α) → String → α → List (String × α)
  | [], k, v => [(k, v)]
  | (k0, v0) :: t, k, v =>
    if k0 = k then (k0, v) :: t else (k0, v0) :: dictInsert t k v

/-- Members of a nested string-to-string object, one `"k": "v"` pair per
iteration of the decoder loop; `fuel` bounds the number of iterations and is
instantiated with the input length. -/
def parseInnerPairs : Nat → List (String × String) → List Nat → Option (List (String × String) × List Nat)
  | 0, _, _ => none
  | fuel + 1, acc, s =>
    match parseJString s with
    | none => none
    | some (k, r1) =>
      if (skipWs r1).head? = some 58 then
        match parseJString (skipWs (skipWs r1).tail) with
        | none => none
        | some (v, r3) =>
          if (skipWs r3).head? = some 44 then
            parseInnerPairs fuel (dictInsert acc k v) (skipWs (skipWs r3).tail)
          else if (skipWs r3).head? = some 125 then some (dictInsert acc k v, (skipWs r3).tail)
          else none
      else none

/-- A nested object after its opening brace. -/
def parseInnerObj (fuel : Nat) (s : List Nat) : Option (List (String × String) × List Nat) :=
  if (skipWs s).head? = some 125 then some ([], (skipWs s).tail)
  else parseInnerPairs fuel [] (skipWs s)

/-- One header value: string, non-negative integer, or nested object.
`true` / `false` / `null` / negative numbers never occur in protocol headers
and are modelled as parse failure. -/
def parseJVal (fuel : Nat) : List Nat → Option (JVal × List Nat)
  | [] => none
  | c :: rest =>
    if c = 34 then (parseStrLoop (rest.length + 1) rest).map (fun p => (JVal.s (String.mk p.1), p.2))
    else if c = 123 then (parseInnerObj fuel rest).map (fun p => (JVal.o p.1, p.2))
    else
      match parseNum (c :: rest) with
      | some (v, r) => some (JVal.n v, r)
      | none => none

/-- Members of the top-level header object. -/
def parseTopPairs : Nat → Header → List Nat → Option (Header × List Nat)
  | 0, _, _ => none
  | fuel + 1, acc, s =>
    match parseJString s with
    | none => none
    | some (k, r1) =>
      if (skipWs r1).head? = some 58 then
        match parseJVal fuel (skipWs (skipWs r1).tail) with
        | none => none
        | some (v, r3) =>
          if (skipWs r3).head? = some 44 then
            parseTopPairs fuel (dictInsert acc k v) (skipWs (skipWs r3).tail)
          else if (skipWs r3).head? = some 125 then some (dictInsert acc k v, (skipWs r3).tail)
          else none
      else none

/-- The top-level header object after its opening brace. -/
def parseTopObj (fuel : Nat) (s : List Nat) : Option (Header × List Nat) :=
  if (skipWs s).head? = some 125 then some ([], (skipWs s).tail)
  else parseTopPairs fuel [] (skipWs s)

/-- `json.loads` on code points, specialised to the protocol: the value must
be an object (both callers immediately use the result as a dict) and nothing
but whitespace may follow it. -/
def loads (s : List Nat) : Option Header :=
  if (skipWs s).head? = some 123 then
    match parseTopObj (s.length + 1) (skipWs s).tail with
    | some (h, rest) => if skipWs rest = [] then some h else none
    | none => none
  else none

/-- `hjson.decode()` followed by `json.loads`. -/
def decodeLoads (l : List Nat) : Option Header :=
  (decodeUtf8 l).bind loads

/-- `struct.pack` of a 4-byte big-endian unsigned length. -/
def u32be (n : Nat) : List Nat :=
  [n / 16777216 % 256, n / 65536 % 256, n / 256 % 256, n % 256]

/-- Big-endian reassembly of the 4 length-prefix bytes (`struct.unpack`). -/
def unU32be (b0 b1 b2 b3 : Nat) : Nat := ((b0 * 256 + b1) * 256 + b2) * 256 + b3

/-- The `body_len` field as `read_message` uses it: absent means 0, an
integer is taken as is, and any other shape would raise in the Python
comparison `header.get('body_len', 0) > 0`. -/
def bodyLenVal (h : Header) : Option Nat :=
  match hget h "body_len" with
  | none => some 0
  | some (.n v) => some v
  | some _ => none

/-- Errors of the frame reader: the peer hung up mid-frame, or the header
did not decode. -/
inductive RErr where
  | linkClosed
  | malformed
deriving DecidableEq, Repr

/-- `send_message`: length-prefixed header bytes followed by the payload.
`struct.pack('>I', n)` raises for lengths of 2^32 or more, hence the
`Option`. -/
def send_message (h : Header) (body : List Nat) : Option (List Nat) :=
  if (dumps h).length < 4294967296 then
    some (u32be (dumps h).length ++ dumps h ++ body)
  else none

/-- `read_message` over a finite byte stream (the end of the list is
end-of-stream): read exactly 4 prefix bytes, exactly that many header bytes,
decode, then exactly `body_len` payload bytes; any short read is
`RErr.linkClosed`.  On success it also returns the unconsumed remainder of
the stream. -/
def read_message (s : List Nat) : Except RErr ((Header × List Nat) × List Nat) :=
  match s with
  | b0 :: b1 :: b2 :: b3 :: rest =>
    if rest.length < unU32be b0 b1 b2 b3 then .error .linkClosed
    else
      match decodeLoads (rest.take (unU32be b0 b1 b2 b3)) with
      | none => .error .malformed
      | some hd =>
        match bodyLenVal hd with
        | none => .error .malformed
        | some bl =>
          if 0 < bl then
            if (rest.drop (unU32be b0 b1 b2 b3)).length < bl then .error .linkClosed
            else
              .ok ((hd, (rest.drop (unU32be b0 b1 b2 b3)).take bl),
                (rest.drop (unU32be b0 b1 b2 b3)).drop bl)
          else .ok ((hd, []), rest.drop (unU32be b0 b1 b2 b3))
  | _ => .error .linkClosed

/-! ### Round trip of the JSON header codec -/

theorem char_toNat_lt (c : Char) : c.toNat < 1114112 := by
  rcases c.valid with h | h <;> (simp only [Char.toNat]; omega)

theorem char_toNat_not_surrogate (c : Char) : ¬ (55296 ≤ c.toNat ∧ c.toNat ≤ 57343) := by
  rcases c.valid with h | h <;> (simp only [Char.toNat]; omega)

theorem hexVal_hexDig (d : Nat) (h : d < 16) : hexVal (hexDig d) = some d := by
  by_cases h10 : d < 10
  · simp only [hexDig, if_pos h10, hexVal]
    rw [if_pos (by omega)]
    congr 1
    omega
  · simp only [hexDig, if_neg h10, hexVal]
    rw [if_neg (by omega), if_pos (by omega)]
    congr 1
    omega

theorem hexVal4_hex4 (n : Nat) (h : n < 65536) :
    hexVal4 (hexDig (n / 4096 % 16)) (hexDig (n / 256 % 16)) (hexDig (n / 16 % 16))
      (hexDig (n % 16)) = some n := by
  have hval : ((n / 4096 % 16 * 16 + n / 256 % 16) * 16 + n / 16 % 16) * 16 + n % 16 = n := by
    omega
  unfold hexVal4
  rw [hexVal_hexDig _ (by omega), hexVal_hexDig _ (by omega), hexVal_hexDig _ (by omega),
    hexVal_hexDig _ (by omega)]
  simp [hval]

theorem pushCp_toNat (c : Char) (o : Option (List Char × List Nat)) :
    pushCp c.toNat o = o.map (fun p => (c :: p.1, p.2)) := by
  have hv : c.toNat.isValidChar := c.valid
  unfold pushCp
  rw [dif_pos hv, Char.ofNat_toNat]

theorem psl_quote (f : Nat) (r : List Nat) : parseStrLoop (f + 1) (34 :: r) = some ([], r) := by
  simp [parseStrLoop]

theorem psl_cons92 (f : Nat) (eRest : List Nat) :
    parseStrLoop (f + 1) (92 :: eRest) =
      match escUnit eRest with
      | some (cp, r2) => pushCp cp (parseStrLoop f r2)
      | none => none := by
  simp only [parseStrLoop]
  norm_num

theorem psl_plain (f c : Nat) (r : List Nat) (h34 : ¬ c = 34) (h92 : ¬ c = 92)
    (h32 : ¬ c < 32) : parseStrLoop (f + 1) (c :: r) = pushCp c (parseStrLoop f r) := by
  simp only [parseStrLoop]
  rw [if_neg h34, if_neg h92, if_neg h32]

theorem psl_esc (f cp : Nat) (eRest r2 : List Nat) (h : escUnit eRest = some (cp, r2)) :
    parseStrLoop (f + 1) (92 :: eRest) = pushCp cp (parseStrLoop f r2) := by
  rw [psl_cons92, h]

theorem escUnit_short (v cp : Nat) (r : List Nat)
    (h : (v, cp) = (34, 34) ∨ (v, cp) = (92, 92) ∨ (v, cp) = (47, 47) ∨ (v, cp) = (98, 8) ∨
      (v, cp) = (102, 12) ∨ (v, cp) = (110, 10) ∨ (v, cp) = (114, 13) ∨ (v, cp) = (116, 9)) :
    escUnit (v :: r) = some (cp, r) := by
  rcases h with h | h | h | h | h | h | h | h <;>
    (obtain ⟨rfl, rfl⟩ := Prod.mk.injEq .. ▸ h; rfl)

theorem escUnit_117_cons (a b c2 d : Nat) (r2 : List Nat) :
    escUnit (117 :: a :: b :: c2 :: d :: r2) =
      (hexVal4 a b c2 d).bind (fun cp =>
        if 55296 ≤ cp ∧ cp ≤ 56319 then
          match r2 with
          | e1 :: e2 :: a2 :: b2 :: c3 :: d2 :: r3 =>
            if e1 = 92 ∧ e2 = 117 then
              (hexVal4 a2 b2 c3 d2).bind (fun cp2 =>
                if 56320 ≤ cp2 ∧ cp2 ≤ 57343 then
                  some (65536 + (cp - 55296) * 1024 + (cp2 - 56320), r3)
                else none)
            else none
          | _ => none
        else some (cp, r2)) := by
  simp only [escUnit]
  norm_num

theorem escUnit_u_single (n : Nat) (r : List Nat) (hn : n < 65536)
    (hns : ¬ (55296 ≤ n ∧ n ≤ 56319)) :
    escUnit (117 :: hex4 n ++ r) = some (n, r) := by
  rw [show (117 : Nat) :: hex4 n ++ r = 117 :: hexDig (n / 4096 % 16) :: hexDig (n / 256 % 16) ::
    hexDig (n / 16 % 16) :: hexDig (n % 16) :: r from by simp [hex4]]
  rw [escUnit_117_cons]
  rw [hexVal4_hex4 n hn, Option.some_bind]
  rw [if_neg hns]

theorem escUnit_u_pair (n : Nat) (r : List Nat) (h1 : 65536 ≤ n) (h2 : n < 1114112) :
    escUnit (117 :: hex4 (55296 + (n - 65536) / 1024) ++
      92 :: 117 :: hex4 (56320 + (n - 65536) % 1024) ++ r) = some (n, r) := by
  rw [show 117 :: hex4 (55296 + (n - 65536) / 1024) ++
      92 :: 117 :: hex4 (56320 + (n - 65536) % 1024) ++ r =
    117 :: hexDig ((55296 + (n - 65536) / 1024) / 4096 % 16) ::
      hexDig ((55296 + (n - 65536) / 1024) / 256 % 16) ::
      hexDig ((55296 + (n - 65536) / 1024) / 16 % 16) ::
      hexDig ((55296 + (n - 65536) / 1024) % 16) ::
      (92 :: 117 :: hexDig ((56320 + (n - 65536) % 1024) / 4096 % 16) ::
        hexDig ((56320 + (n - 65536) % 1024) / 256 % 16) ::
        hexDig ((56320 + (n - 65536) % 1024) / 16 % 16) ::
        hexDig ((56320 + (n - 65536) % 1024) % 16) :: r) from by simp [hex4]]
  rw [escUnit_117_cons]
  rw [hexVal4_hex4 (55296 + (n - 65536) / 1024) (by omega), Option.some_bind]
  rw [if_pos (by omega)]
  show (if (92 : Nat) = 92 ∧ (117 : Nat) = 117 then
      (hexVal4 (hexDig ((56320 + (n - 65536) % 1024) / 4096 % 16))
        (hexDig ((56320 + (n - 65536) % 1024) / 256 % 16))
        (hexDig ((56320 + (n - 65536) % 1024) / 16 % 16))
        (hexDig ((56320 + (n - 65536) % 1024) % 16))).bind (fun cp2 =>
          if 56320 ≤ cp2 ∧ cp2 ≤ 57343 then
            some (65536 + (55296 + (n - 65536) / 1024 - 55296) * 1024 + (cp2 - 56320), r)
          else none)
    else none) = some (n, r)
  rw [if_pos (show (92 : Nat) = 92 ∧ (117 : Nat) = 117 from by constructor <;> rfl)]
  rw [hexVal4_hex4 (56320 + (n - 65536) % 1024) (by omega), Option.some_bind]
  rw [if_pos (by omega)]
  rw [show 65536 + (55296 + (n - 65536) / 1024 - 55296) * 1024 +
    (56320 + (n - 65536) % 1024 - 56320) = n from by omega]

theorem parseStrLoop_escString (s : List Char) (rest : List Nat) (fuel : Nat)
    (hf : s.length < fuel) :
    parseStrLoop fuel (escString s ++ 34 :: rest) = some (s, rest) := by
  induction s generalizing fuel with
  | nil =>
    obtain ⟨f, rfl⟩ : ∃ f, fuel = f + 1 := ⟨fuel - 1, by omega⟩
    simpa [escString] using psl_quote f rest
  | cons c t ih =>
    obtain ⟨f, rfl⟩ : ∃ f, fuel = f + 1 := ⟨fuel - 1, by omega⟩
    have hft : t.length < f := by simpa using hf
    have hlt := char_toNat_lt c
    have hsur := char_toNat_not_surrogate c
    have hih := ih f hft
    have hfin : pushCp c.toNat (parseStrLoop f (escString t ++ 34 :: rest)) =
        some (c :: t, rest) := by
      rw [hih, pushCp_toNat]
      rfl
    show parseStrLoop (f + 1) (escapeChar c ++ escString t ++ 34 :: rest) = some (c :: t, rest)
    rw [List.append_assoc]
    simp only [escapeChar]
    split_ifs with h1 h2 h3 h4 h5 h6 h7 h8 h9 h10
    · rw [show ([92, 34] : List Nat) ++ (escString t ++ 34 :: rest) =
        92 :: (34 :: (escString t ++ 34 :: rest)) from rfl]
      rw [psl_esc f c.toNat _ _ (escUnit_short 34 c.toNat _ (by simp [h1]))]
      exact hfin
    · rw [show ([92, 92] : List Nat) ++ (escString t ++ 34 :: rest) =
        92 :: (92 :: (escString t ++ 34 :: rest)) from rfl]
      rw [psl_esc f c.toNat _ _ (escUnit_short 92 c.toNat _ (by simp [h2]))]
      exact hfin
    · rw [show ([92, 98] : List Nat) ++ (escString t ++ 34 :: rest) =
        92 :: (98 :: (escString t ++ 34 :: rest)) from rfl]
      rw [psl_esc f c.toNat _ _ (escUnit_short 98 c.toNat _ (by simp [h3]))]
      exact hfin
    · rw [show ([92, 116] : List Nat) ++ (escString t ++ 34 :: rest) =
        92 :: (116 :: (escString t ++ 34 :: rest)) from rfl]
      rw [psl_esc f c.toNat _ _ (escUnit_short 116 c.toNat _ (by simp [h4]))]
      exact hfin
    · rw [show ([92, 110] : List Nat) ++ (escString t ++ 34 :: rest) =
        92 :: (110 :: (escString t ++ 34 :: rest)) from rfl]
      rw [psl_esc f c.toNat _ _ (escUnit_short 110 c.toNat _ (by simp [h5]))]
      exact hfin
    · rw [show ([92, 102] : List Nat) ++ (escString t ++ 34 :: rest) =
        92 :: (102 :: (escString t ++ 34 :: rest)) from rfl]
      rw [psl_esc f c.toNat _ _ (escUnit_short 102 c.toNat _ (by simp [h6]))]
      exact hfin
    · rw [show ([92, 114] : List Nat) ++ (escString t ++ 34 :: rest) =
        92 :: (114 :: (escString t ++ 34 :: rest)) from rfl]
      rw [psl_esc f c.toNat _ _ (escUnit_short 114 c.toNat _ (by simp [h7]))]
      exact hfin
    · -- other control characters: a single \u00XX escape
      rw [show (92 :: 117 :: hex4 c.toNat) ++ (escString t ++ 34 :: rest) =
        92 :: (117 :: hex4 c.toNat ++ (escString t ++ 34 :: rest)) from by simp]
      rw [psl_esc f c.toNat _ _ (escUnit_u_single c.toNat _ (by omega) (by omega))]
      exact hfin
    · -- printable ASCII, kept verbatim
      rw [show ([c.toNat] : List Nat) ++ (escString t ++ 34 :: rest) =
        c.toNat :: (escString t ++ 34 :: rest) from rfl]
      rw [psl_plain f c.toNat _ h1 h2 (by omega)]
      exact hfin
    · -- BMP non-ASCII: a single \uXXXX escape
      rw [show (92 :: 117 :: hex4 c.toNat) ++ (escString t ++ 34 :: rest) =
        92 :: (117 :: hex4 c.toNat ++ (escString t ++ 34 :: rest)) from by simp]
      rw [psl_esc f c.toNat _ _ (escUnit_u_single c.toNat _ (by omega) (by omega))]
      exact hfin
    · -- astral plane: surrogate pair
      rw [show (92 :: 117 :: hex4 (55296 + (c.toNat - 65536) / 1024) ++
          92 :: 117 :: hex4 (56320 + (c.toNat - 65536) % 1024)) ++ (escString t ++ 34 :: rest) =
        92 :: (117 :: hex4 (55296 + (c.toNat - 65536) / 1024) ++
          92 :: 117 :: hex4 (56320 + (c.toNat - 65536) % 1024) ++ (escString t ++ 34 :: rest))
        from by simp]
      rw [psl_esc f c.toNat _ _ (escUnit_u_pair c.toNat _ (by omega) (by omega))]
      exact hfin

theorem escapeChar_ne_nil (c : Char) : escapeChar c ≠ [] := by
  simp only [escapeChar]
  split_ifs <;> simp [hex4]

theorem escString_len (s : List Char) : s.length ≤ (escString s).length := by
  induction s with
  | nil => simp [escString]
  | cons c t ih =>
    have h := escapeChar_ne_nil c
    have : 1 ≤ (escapeChar c).length := by
      cases hc : escapeChar c
      · exact absurd hc h
      · simp
    simp only [escString, List.length_append, List.length_cons]
    omega

theorem parseJString_dumpStr (s : String) (rest : List Nat) :
    parseJString (dumpStr s ++ rest) = some (s, rest) := by
  rw [show dumpStr s ++ rest = 34 :: (escString s.data ++ 34 :: rest) from by
    simp [dumpStr]]
  simp only [parseJString, if_pos rfl]
  rw [parseStrLoop_escString]
  · rfl
  · have h1 := escString_len s.data
    simp only [List.length_append, List.length_cons]
    omega

theorem digitsOfAux_acc (fuel : Nat) : ∀ (n : Nat) (acc : List Nat),
    digitsOfAux fuel n acc = digitsOfAux fuel n [] ++ acc := by
  induction fuel with
  | zero => intro n acc; simp [digitsOfAux]
  | succ f ih =>
    intro n acc
    by_cases h : n < 10
    · simp [digitsOfAux, h]
    · simp only [digitsOfAux, if_neg h]
      rw [ih (n / 10) (n % 10 :: acc), ih (n / 10) [n % 10]]
      simp

theorem digitsOfAux_fuel (fuel1 : Nat) : ∀ (fuel2 n : Nat), n ≤ fuel1 → n ≤ fuel2 →
    digitsOfAux fuel1 n [] = digitsOfAux fuel2 n [] := by
  induction fuel1 with
  | zero =>
    intro fuel2 n h1 h2
    obtain rfl : n = 0 := by omega
    cases fuel2 <;> simp [digitsOfAux]
  | succ f1 ih =>
    intro fuel2 n h1 h2
    by_cases h : n < 10
    · cases fuel2 with
      | zero =>
        obtain rfl : n = 0 := by omega
        simp [digitsOfAux]
      | succ f2 => simp [digitsOfAux, h]
    · obtain ⟨f2, rfl⟩ : ∃ f2, fuel2 = f2 + 1 := ⟨fuel2 - 1, by omega⟩
      simp only [digitsOfAux, if_neg h]
      rw [digitsOfAux_acc f1, digitsOfAux_acc f2]
      rw [ih f2 (n / 10) (by omega) (by omega)]

theorem digitsOf_eq (n : Nat) :
    digitsOf n = if n < 10 then [n] else digitsOf (n / 10) ++ [n % 10] := by
  by_cases h : n < 10
  · rw [if_pos h]
    unfold digitsOf
    cases n with
    | zero => simp [digitsOfAux]
    | succ m => simp [digitsOfAux, h]
  · rw [if_neg h]
    unfold digitsOf
    obtain ⟨m, rfl⟩ : ∃ m, n = m + 1 := ⟨n - 1, by omega⟩
    rw [show digitsOfAux (m + 1) (m + 1) [] =
      digitsOfAux m ((m + 1) / 10) [(m + 1) % 10] from by simp [digitsOfAux, h]]
    rw [digitsOfAux_acc m]
    rw [digitsOfAux_fuel m ((m + 1) / 10) ((m + 1) / 10) (by omega) (by omega)]

theorem digitsOf_lt10 (n : Nat) : ∀ d ∈ digitsOf n, d < 10 := by
  induction n using Nat.strong_induction_on with
  | _ n ih =>
    rw [digitsOf_eq]
    by_cases h : n < 10
    · simp only [if_pos h, List.mem_singleton]
      intro d hd
      omega
    · simp only [if_neg h, List.mem_append, List.mem_singleton]
      intro d hd
      rcases hd with hd | hd
      · exact ih (n / 10) (by omega) d hd
      · omega

theorem digitsOf_value (n : Nat) :
    (digitsOf n).foldl (fun a d => a * 10 + d) 0 = n := by
  induction n using Nat.strong_induction_on with
  | _ n ih =>
    rw [digitsOf_eq]
    by_cases h : n < 10
    · simp [h]
    · rw [if_neg h, List.foldl_append]
      rw [ih (n / 10) (by omega)]
      simp only [List.foldl_cons, List.foldl_nil]
      omega

theorem digitsOf_head_pos (n : Nat) (h : 0 < n) :
    ∃ d ds, digitsOf n = d :: ds ∧ 1 ≤ d ∧ d < 10 := by
  induction n using Nat.strong_induction_on with
  | _ n ih =>
    rw [digitsOf_eq]
    by_cases h10 : n < 10
    · exact ⟨n, [], by simp [h10], by omega, by omega⟩
    · obtain ⟨d, ds, hd, h1, h2⟩ := ih (n / 10) (by omega) (by omega)
      exact ⟨d, ds ++ [n % 10], by simp [if_neg h10, hd], h1, h2⟩

/-- The head byte of the remaining input does not extend the number just
parsed: not a digit, and not a fraction dot or exponent mark. -/
def noNumTail (l : List Nat) : Prop :=
  match l with
  | [] => True
  | c :: _ => ¬ (48 ≤ c ∧ c ≤ 57) ∧ ¬ c = 46 ∧ ¬ c = 101 ∧ ¬ c = 69

instance noNumTail.decide (l : List Nat) : Decidable (noNumTail l) := by
  cases l <;> simp only [noNumTail] <;> infer_instance

theorem digitsLoop_stop (acc : Nat) (l : List Nat) (h : noNumTail l) :
    digitsLoop acc l = (acc, l) := by
  cases l with
  | nil => rfl
  | cons c cs =>
    simp only [noNumTail] at h
    simp [digitsLoop, h.1]

theorem digitsLoop_append (ds : List Nat) : ∀ (acc : Nat) (rest : List Nat),
    (∀ d ∈ ds, d < 10) → noNumTail rest →
    digitsLoop acc (ds.map (fun d => d + 48) ++ rest) =
      (ds.foldl (fun a d => a * 10 + d) acc, rest) := by
  induction ds with
  | nil =>
    intro acc rest _ hrest
    simpa using digitsLoop_stop acc rest hrest
  | cons d t ih =>
    intro acc rest hds hrest
    have hd : d < 10 := hds d (by simp)
    simp only [List.map_cons, List.cons_append, digitsLoop]
    rw [if_pos (by omega)]
    rw [show d + 48 - 48 = d from by omega]
    simp only [List.append_eq]
    rw [ih (acc * 10 + d) rest (fun x hx => hds x (by simp [hx])) hrest]
    simp

theorem numGuard_eq (v : Nat) (l : List Nat) (h : noNumTail l) :
    numGuard v l = some (v, l) := by
  cases l with
  | nil => rfl
  | cons c cs =>
    simp only [noNumTail] at h
    simp [numGuard, h.2.1, h.2.2.1, h.2.2.2]

theorem parseNum_dumpNat (n : Nat) (rest : List Nat) (hrest : noNumTail rest) :
    parseNum (dumpNat n ++ rest) = some (n, rest) := by
  by_cases h0 : n = 0
  · subst h0
    rw [show dumpNat 0 ++ rest = 48 :: rest from rfl]
    simp only [parseNum, if_pos rfl]
    exact numGuard_eq 0 rest hrest
  · obtain ⟨d, ds, hdds, hd1, hd9⟩ := digitsOf_head_pos n (by omega)
    have hds10 : ∀ x ∈ ds, x < 10 := by
      intro x hx
      exact digitsOf_lt10 n x (by simp [hdds, hx])
    rw [show dumpNat n ++ rest = (d + 48) :: (ds.map (fun x => x + 48) ++ rest) from by
      simp [dumpNat, hdds]]
    simp only [parseNum]
    rw [if_neg (by omega), if_pos (by omega)]
    rw [digitsLoop_append ds (d + 48 - 48) rest hds10 hrest]
    rw [numGuard_eq _ rest hrest]
    rw [show d + 48 - 48 = d from by omega]
    have hval : ds.foldl (fun a x => a * 10 + x) d = n := by
      have h1 := digitsOf_value n
      rw [hdds] at h1
      simpa using h1
    rw [hval]

theorem skipWs_cons_nonws (c : Nat) (l : List Nat) (h : ¬ (c = 32 ∨ c = 9 ∨ c = 10 ∨ c = 13)) :
    skipWs (c :: l) = c :: l := by
  simp only [skipWs]
  rw [if_neg h]

theorem skipWs_sp (l : List Nat) : skipWs (32 :: l) = skipWs l := by
  simp [skipWs]

theorem skipWs_dumpStr (s : String) (r : List Nat) :
    skipWs (dumpStr s ++ r) = dumpStr s ++ r := by
  rw [show dumpStr s ++ r = 34 :: (escString s.data ++ (34 :: r)) from by simp [dumpStr]]
  exact skipWs_cons_nonws 34 _ (by norm_num)

theorem dumpInnerPairs_cons_append (kv : String × String) (t : List (String × String))
    (r : List Nat) :
    dumpInnerPairs (kv :: t) ++ r = 34 :: (escString kv.1.data ++ (34 :: (58 :: 32 ::
      (dumpStr kv.2 ++ (if t = [] then r else 44 :: 32 :: (dumpInnerPairs t ++ r)))))) := by
  cases t with
  | nil => simp [dumpInnerPairs, dumpStr]
  | cons kv2 t2 => simp [dumpInnerPairs, dumpStr]

theorem skipWs_dumpInnerPairs (kv : String × String) (t : List (String × String))
    (r : List Nat) :
    skipWs (dumpInnerPairs (kv :: t) ++ r) = dumpInnerPairs (kv :: t) ++ r := by
  rw [dumpInnerPairs_cons_append]
  exact skipWs_cons_nonws 34 _ (by norm_num)

theorem dumpPairs_cons_append (kv : String × JVal) (t : Header) (r : List Nat) :
    dumpPairs (kv :: t) ++ r = 34 :: (escString kv.1.data ++ (34 :: (58 :: 32 ::
      (dumpVal kv.2 ++ (if t = [] then r else 44 :: 32 :: (dumpPairs t ++ r)))))) := by
  cases t with
  | nil => simp [dumpPairs, dumpPair, dumpStr]
  | cons kv2 t2 => simp [dumpPairs, dumpPair, dumpStr]

theorem skipWs_dumpPairs (kv : String × JVal) (t : Header) (r : List Nat) :
    skipWs (dumpPairs (kv :: t) ++ r) = dumpPairs (kv :: t) ++ r := by
  rw [dumpPairs_cons_append]
  exact skipWs_cons_nonws 34 _ (by norm_num)

theorem dictInsert_append {α : Type} (m : List (String × α)) (k : String) (v : α)
    (h : ∀ kv ∈ m, ¬ kv.1 = k) : dictInsert m k v = m ++ [(k, v)] := by
  induction m with
  | nil => rfl
  | cons kv0 t ih =>
    obtain ⟨k0, v0⟩ := kv0
    simp only [dictInsert]
    rw [if_neg (h (k0, v0) (by simp))]
    rw [ih (fun kv hkv => h kv (by simp [hkv]))]
    rfl

/-- Size of a value for the parser-fuel bookkeeping: nested objects cost one
unit per member plus one. -/
def jsize : JVal → Nat
  | .o kvs => kvs.length + 1
  | _ => 0

/-- Fuel needed to parse the members of a serialized header. -/
def hsize : Header → Nat
  | [] => 0
  | kv :: t => 1 + jsize kv.2 + hsize t

/-- Well-formedness of a value: a nested object has no duplicate keys
(guaranteed by the Python dict it serializes). -/
def valWF : JVal → Prop
  | .o kvs => (kvs.map Prod.fst).Nodup
  | _ => True

instance valWF.dec (v : JVal) : Decidable (valWF v) := by
  cases v <;> simp only [valWF] <;> infer_instance

/-- Well-formedness of a header dict: no duplicate keys, anywhere. -/
def headerWF (h : Header) : Prop :=
  (h.map Prod.fst).Nodup ∧ ∀ kv ∈ h, valWF kv.2

instance headerWF.dec (h : Header) : Decidable (headerWF h) := by
  unfold headerWF
  infer_instance

theorem parseInnerPairs_rt (kvs : List (String × String)) :
    ∀ (acc : List (String × String)) (rest : List Nat) (fuel : Nat),
    kvs ≠ [] → kvs.length < fuel → (kvs.map Prod.fst).Nodup →
    (∀ kv ∈ kvs, ∀ kv2 ∈ acc, ¬ kv2.1 = kv.1) →
    parseInnerPairs fuel acc (dumpInnerPairs kvs ++ 125 :: rest) = some (acc ++ kvs, rest) := by
  induction kvs with
  | nil => intro acc rest fuel hne; cases hne rfl
  | cons kv t ih =>
    intro acc rest fuel _ hfuel hnd hdisj
    obtain ⟨k, v⟩ := kv
    obtain ⟨f, rfl⟩ : ∃ f, fuel = f + 1 := ⟨fuel - 1, by omega⟩
    have hins : dictInsert acc k v = acc ++ [(k, v)] :=
      dictInsert_append acc k v (fun kv2 hkv2 => hdisj (k, v) (by simp) kv2 hkv2)
    cases t with
    | nil =>
      rw [show dumpInnerPairs [(k, v)] ++ 125 :: rest =
        dumpStr k ++ (58 :: 32 :: (dumpStr v ++ 125 :: rest)) from by simp [dumpInnerPairs]]
      have h58 : skipWs (58 :: 32 :: (dumpStr v ++ 125 :: rest)) =
          58 :: 32 :: (dumpStr v ++ 125 :: rest) := skipWs_cons_nonws _ _ (by norm_num)
      have h125 : skipWs (125 :: rest) = 125 :: rest := skipWs_cons_nonws _ _ (by norm_num)
      simp only [parseInnerPairs, parseJString_dumpStr, h58, h125, List.head?_cons,
        List.tail_cons, skipWs_sp, skipWs_dumpStr, hins]
      norm_num
    | cons kv2 t2 =>
      rw [show dumpInnerPairs ((k, v) :: kv2 :: t2) ++ 125 :: rest =
        dumpStr k ++ (58 :: 32 :: (dumpStr v ++
          44 :: 32 :: (dumpInnerPairs (kv2 :: t2) ++ 125 :: rest))) from by
        simp [dumpInnerPairs]]
      have h58 : skipWs (58 :: 32 :: (dumpStr v ++
          44 :: 32 :: (dumpInnerPairs (kv2 :: t2) ++ 125 :: rest))) =
          58 :: 32 :: (dumpStr v ++ 44 :: 32 :: (dumpInnerPairs (kv2 :: t2) ++ 125 :: rest)) :=
        skipWs_cons_nonws _ _ (by norm_num)
      have h44 : skipWs (44 :: 32 :: (dumpInnerPairs (kv2 :: t2) ++ 125 :: rest)) =
          44 :: 32 :: (dumpInnerPairs (kv2 :: t2) ++ 125 :: rest) :=
        skipWs_cons_nonws _ _ (by norm_num)
      have hnd2 : (k :: (kv2 :: t2).map Prod.fst).Nodup := by simpa using hnd
      have hknotin : k ∉ (kv2 :: t2).map Prod.fst := (List.nodup_cons.mp hnd2).1
      have hndt : ((kv2 :: t2).map Prod.fst).Nodup := (List.nodup_cons.mp hnd2).2
      have hrec := ih (acc ++ [(k, v)]) rest f (by simp) (by simpa using hfuel) hndt
        (by
          intro kv3 hkv3 kv4 hkv4
          rcases List.mem_append.mp hkv4 with h4 | h4
          · exact hdisj kv3 (by simp [hkv3]) kv4 h4
          · obtain rfl : kv4 = (k, v) := by simpa using h4
            show ¬ k = kv3.1
            intro hcontra
            exact hknotin (by
              rw [hcontra]
              exact List.mem_map_of_mem Prod.fst hkv3))
      simp only [parseInnerPairs, parseJString_dumpStr, h58, h44, List.head?_cons,
        List.tail_cons, skipWs_sp, skipWs_dumpStr, skipWs_dumpInnerPairs, hins]
      norm_num
      rw [hrec]
      simp

theorem digitsOf_cons (m : Nat) : ∃ d ds, digitsOf m = d :: ds ∧ d < 10 := by
  by_cases h : m = 0
  · subst h
    exact ⟨0, [], rfl, by omega⟩
  · obtain ⟨d, ds, h1, _, hlt⟩ := digitsOf_head_pos m (by omega)
    exact ⟨d, ds, h1, hlt⟩

theorem skipWs_dumpVal (v : JVal) (r : List Nat) :
    skipWs (dumpVal v ++ r) = dumpVal v ++ r := by
  cases v with
  | s str => exact skipWs_dumpStr str r
  | n m =>
    obtain ⟨d, ds, hdds, hd10⟩ := digitsOf_cons m
    rw [show dumpVal (JVal.n m) ++ r = (d + 48) :: (ds.map (fun x => x + 48) ++ r) from by
      simp [dumpVal, dumpNat, hdds]]
    exact skipWs_cons_nonws _ _ (by omega)
  | o kvs =>
    rw [show dumpVal (JVal.o kvs) ++ r = 123 :: (dumpInnerPairs kvs ++ ([125] ++ r)) from by
      simp [dumpVal, dumpInner]]
    exact skipWs_cons_nonws _ _ (by norm_num)

theorem parseInnerObj_rt (kvs : List (String × String)) (rest : List Nat) (fuel : Nat)
    (hfuel : kvs.length < fuel) (hnd : (kvs.map Prod.fst).Nodup) :
    parseInnerObj fuel (dumpInnerPairs kvs ++ 125 :: rest) = some (kvs, rest) := by
  cases kvs with
  | nil =>
    have h125 : skipWs (125 :: rest) = 125 :: rest := skipWs_cons_nonws _ _ (by norm_num)
    simp [dumpInnerPairs, parseInnerObj, h125]
  | cons kv t =>
    unfold parseInnerObj
    rw [skipWs_dumpInnerPairs]
    rw [if_neg (by rw [dumpInnerPairs_cons_append]; simp)]
    have := parseInnerPairs_rt (kv :: t) [] rest fuel (by simp) hfuel hnd
      (by intro a _ b hb; simp at hb)
    simpa using this

theorem parseJVal_rt (v : JVal) (rest : List Nat) (fuel : Nat)
    (hfuel : jsize v < fuel) (hwf : valWF v) (hrest : noNumTail rest) :
    parseJVal fuel (dumpVal v ++ rest) = some (v, rest) := by
  cases v with
  | s str =>
    rw [show dumpVal (JVal.s str) ++ rest = 34 :: (escString str.data ++ (34 :: rest)) from by
      simp [dumpVal, dumpStr]]
    simp only [parseJVal]
    rw [if_pos trivial]
    rw [parseStrLoop_escString str.data rest _ (by
      have := escString_len str.data
      simp only [List.length_append, List.length_cons]
      omega)]
    rfl
  | n m =>
    obtain ⟨d, ds, hdds, hd10⟩ := digitsOf_cons m
    rw [show dumpVal (JVal.n m) ++ rest = (d + 48) :: (ds.map (fun x => x + 48) ++ rest) from by
      simp [dumpVal, dumpNat, hdds]]
    simp only [parseJVal]
    rw [if_neg (by omega), if_neg (by omega)]
    rw [show (d + 48) :: (List.map (fun x => x + 48) ds ++ rest) = dumpNat m ++ rest from by
      simp [dumpNat, hdds]]
    rw [parseNum_dumpNat m rest hrest]
  | o kvs =>
    rw [show dumpVal (JVal.o kvs) ++ rest = 123 :: (dumpInnerPairs kvs ++ 125 :: rest) from by
      simp [dumpInner, dumpVal]]
    simp only [parseJVal]
    rw [if_pos trivial]
    rw [parseInnerObj_rt kvs rest fuel (by
      have : kvs.length + 1 < fuel := by simpa [jsize] using hfuel
      omega) (by simpa [valWF] using hwf)]
    rfl

theorem parseTopPairs_rt (kvs : Header) :
    ∀ (acc : Header) (rest : List Nat) (fuel : Nat),
    kvs ≠ [] → hsize kvs < fuel → (kvs.map Prod.fst).Nodup →
    (∀ kv ∈ kvs, valWF kv.2) →
    (∀ kv ∈ kvs, ∀ kv2 ∈ acc, ¬ kv2.1 = kv.1) →
    parseTopPairs fuel acc (dumpPairs kvs ++ 125 :: rest) = some (acc ++ kvs, rest) := by
  induction kvs with
  | nil => intro acc rest fuel hne; cases hne rfl
  | cons kv t ih =>
    intro acc rest fuel _ hfuel hnd hvwf hdisj
    obtain ⟨k, v⟩ := kv
    obtain ⟨f, rfl⟩ : ∃ f, fuel = f + 1 := ⟨fuel - 1, by omega⟩
    have hfuel2 : 1 + jsize v + hsize t < f + 1 := by simpa [hsize] using hfuel
    have hins : dictInsert acc k v = acc ++ [(k, v)] :=
      dictInsert_append acc k v (fun kv2 hkv2 => hdisj (k, v) (by simp) kv2 hkv2)
    have hvwf0 : valWF v := hvwf (k, v) (by simp)
    cases t with
    | nil =>
      rw [show dumpPairs [(k, v)] ++ 125 :: rest =
        dumpStr k ++ (58 :: 32 :: (dumpVal v ++ 125 :: rest)) from by
        simp [dumpPairs, dumpPair]]
      have h58 : skipWs (58 :: 32 :: (dumpVal v ++ 125 :: rest)) =
          58 :: 32 :: (dumpVal v ++ 125 :: rest) := skipWs_cons_nonws _ _ (by norm_num)
      have h125 : skipWs (125 :: rest) = 125 :: rest := skipWs_cons_nonws _ _ (by norm_num)
      have hval := parseJVal_rt v (125 :: rest) f (by omega) hvwf0 (by
        simp only [noNumTail]
        norm_num)
      simp only [parseTopPairs, parseJString_dumpStr, h58, h125, List.head?_cons,
        List.tail_cons, skipWs_sp, skipWs_dumpStr, skipWs_dumpVal, hval, hins]
      norm_num
    | cons kv2 t2 =>
      rw [show dumpPairs ((k, v) :: kv2 :: t2) ++ 125 :: rest =
        dumpStr k ++ (58 :: 32 :: (dumpVal v ++
          44 :: 32 :: (dumpPairs (kv2 :: t2) ++ 125 :: rest))) from by
        simp [dumpPairs, dumpPair]]
      have h58 : skipWs (58 :: 32 :: (dumpVal v ++
          44 :: 32 :: (dumpPairs (kv2 :: t2) ++ 125 :: rest))) =
          58 :: 32 :: (dumpVal v ++ 44 :: 32 :: (dumpPairs (kv2 :: t2) ++ 125 :: rest)) :=
        skipWs_cons_nonws _ _ (by norm_num)
      have h44 : skipWs (44 :: 32 :: (dumpPairs (kv2 :: t2) ++ 125 :: rest)) =
          44 :: 32 :: (dumpPairs (kv2 :: t2) ++ 125 :: rest) :=
        skipWs_cons_nonws _ _ (by norm_num)
      have hnd2 : (k :: (kv2 :: t2).map Prod.fst).Nodup := by simpa using hnd
      have hknotin : k ∉ (kv2 :: t2).map Prod.fst := (List.nodup_cons.mp hnd2).1
      have hndt : ((kv2 :: t2).map Prod.fst).Nodup := (List.nodup_cons.mp hnd2).2
      have hval := parseJVal_rt v (44 :: 32 :: (dumpPairs (kv2 :: t2) ++ 125 :: rest)) f
        (by omega) hvwf0 (by
          simp only [noNumTail]
          norm_num)
      have hrec := ih (acc ++ [(k, v)]) rest f (by simp) (by omega) hndt
        (fun kv3 hkv3 => hvwf kv3 (by simp [hkv3]))
        (by
          intro kv3 hkv3 kv4 hkv4
          rcases List.mem_append.mp hkv4 with h4 | h4
          · exact hdisj kv3 (by simp [hkv3]) kv4 h4
          · obtain rfl : kv4 = (k, v) := by simpa using h4
            show ¬ k = kv3.1
            intro hcontra
            exact hknotin (by
              rw [hcontra]
              exact List.mem_map_of_mem Prod.fst hkv3))
      simp only [parseTopPairs, parseJString_dumpStr, h58, h44, List.head?_cons,
        List.tail_cons, skipWs_sp, skipWs_dumpStr, skipWs_dumpVal, skipWs_dumpPairs, hval, hins]
      norm_num
      rw [hrec]
      simp

theorem dumpStr_len (s : String) : 2 ≤ (dumpStr s).length := by
  simp [dumpStr]

theorem dumpNat_len (n : Nat) : 1 ≤ (dumpNat n).length := by
  obtain ⟨d, ds, hdds, _⟩ := digitsOf_cons n
  simp [dumpNat, hdds]

theorem dumpInnerPairs_len (kvs : List (String × String)) :
    kvs.length ≤ (dumpInnerPairs kvs).length := by
  induction kvs with
  | nil => simp [dumpInnerPairs]
  | cons kv t ih =>
    cases t with
    | nil =>
      have h1 := dumpStr_len kv.1
      rw [show dumpInnerPairs [kv] = dumpStr kv.1 ++ 58 :: 32 :: dumpStr kv.2 from rfl]
      simp only [List.length_append, List.length_cons, List.length_nil]
      omega
    | cons kv2 t2 =>
      have h1 := dumpStr_len kv.1
      rw [show dumpInnerPairs (kv :: kv2 :: t2) =
        (dumpStr kv.1 ++ 58 :: 32 :: dumpStr kv.2) ++ 44 :: 32 :: dumpInnerPairs (kv2 :: t2)
        from rfl]
      simp only [List.length_append, List.length_cons] at ih ⊢
      omega

theorem dumpVal_len (v : JVal) : jsize v + 1 ≤ (dumpVal v).length := by
  cases v with
  | s str =>
    have := dumpStr_len str
    simp only [dumpVal, jsize]
    omega
  | n m =>
    have := dumpNat_len m
    simp only [dumpVal, jsize]
    omega
  | o kvs =>
    have := dumpInnerPairs_len kvs
    simp only [dumpVal, dumpInner, jsize, List.length_cons, List.length_append,
      List.length_singleton]
    omega

theorem dumpPairs_len (kvs : Header) : hsize kvs ≤ (dumpPairs kvs).length := by
  induction kvs with
  | nil => simp [dumpPairs, hsize]
  | cons kv t ih =>
    cases t with
    | nil =>
      have h1 := dumpStr_len kv.1
      have h2 := dumpVal_len kv.2
      simp only [dumpPairs, dumpPair, hsize, List.length_append, List.length_cons]
      omega
    | cons kv2 t2 =>
      have h1 := dumpStr_len kv.1
      have h2 := dumpVal_len kv.2
      simp only [dumpPairs, dumpPair, hsize, List.length_append, List.length_cons] at ih ⊢
      omega

theorem loads_dumps (h : Header) (hwf : headerWF h) : loads (dumps h) = some h := by
  cases h with
  | nil => decide
  | cons kv t =>
    have hlen := dumpPairs_len (kv :: t)
    rw [show dumps (kv :: t) = 123 :: (dumpPairs (kv :: t) ++ 125 :: []) from by simp [dumps]]
    have hsw : skipWs (123 :: (dumpPairs (kv :: t) ++ 125 :: [])) =
        123 :: (dumpPairs (kv :: t) ++ 125 :: []) := skipWs_cons_nonws _ _ (by norm_num)
    have hrt := parseTopPairs_rt (kv :: t) [] []
      ((123 :: (dumpPairs (kv :: t) ++ 125 :: [])).length + 1)
      (by simp) (by
        simp only [List.length_cons, List.length_append]
        omega) hwf.1 (fun kv2 h2 => hwf.2 kv2 h2) (by
        intro a _ b hb
        simp at hb)
    have hobj : parseTopObj ((123 :: (dumpPairs (kv :: t) ++ 125 :: [])).length + 1)
        (dumpPairs (kv :: t) ++ 125 :: []) = some (kv :: t, []) := by
      unfold parseTopObj
      rw [skipWs_dumpPairs]
      rw [if_neg (by
        rw [dumpPairs_cons_append]
        simp)]
      simpa using hrt
    simp only [loads, hsw, List.head?_cons, List.tail_cons, hobj]
    norm_num [skipWs]

theorem hexDig_lt128 (d : Nat) (h : d < 16) : hexDig d < 128 := by
  unfold hexDig
  split_ifs <;> omega

theorem hex4_ascii (n : Nat) : ∀ b ∈ hex4 n, b < 128 := by
  intro b hb
  simp only [hex4, List.mem_cons, List.not_mem_nil, or_false] at hb
  rcases hb with rfl | rfl | rfl | rfl <;> exact hexDig_lt128 _ (by omega)

theorem mem_u_escape (n b : Nat) (hb : b ∈ 92 :: 117 :: hex4 n) : b < 128 := by
  simp only [List.mem_cons] at hb
  rcases hb with rfl | rfl | hb
  · omega
  · omega
  · exact hex4_ascii n b hb

theorem escapeChar_ascii (c : Char) : ∀ b ∈ escapeChar c, b < 128 := by
  intro b hb
  have hlt := char_toNat_lt c
  simp only [escapeChar] at hb
  split_ifs at hb with h1 h2 h3 h4 h5 h6 h7 h8 h9 h10
  case pos => rcases List.mem_cons.mp hb with rfl | hb2; · omega
              rcases List.mem_cons.mp hb2 with rfl | hb3; · omega
              exact absurd hb3 (List.not_mem_nil b)
  case pos => rcases List.mem_cons.mp hb with rfl | hb2; · omega
              rcases List.mem_cons.mp hb2 with rfl | hb3; · omega
              exact absurd hb3 (List.not_mem_nil b)
  case pos => rcases List.mem_cons.mp hb with rfl | hb2; · omega
              rcases List.mem_cons.mp hb2 with rfl | hb3; · omega
              exact absurd hb3 (List.not_mem_nil b)
  case pos => rcases List.mem_cons.mp hb with rfl | hb2; · omega
              rcases List.mem_cons.mp hb2 with rfl | hb3; · omega
              exact absurd hb3 (List.not_mem_nil b)
  case pos => rcases List.mem_cons.mp hb with rfl | hb2; · omega
              rcases List.mem_cons.mp hb2 with rfl | hb3; · omega
              exact absurd hb3 (List.not_mem_nil b)
  case pos => rcases List.mem_cons.mp hb with rfl | hb2; · omega
              rcases List.mem_cons.mp hb2 with rfl | hb3; · omega
              exact absurd hb3 (List.not_mem_nil b)
  case pos => rcases List.mem_cons.mp hb with rfl | hb2; · omega
              rcases List.mem_cons.mp hb2 with rfl | hb3; · omega
              exact absurd hb3 (List.not_mem_nil b)
  case pos => exact mem_u_escape _ _ hb
  case pos => rcases List.mem_cons.mp hb with rfl | hb2; · omega
              exact absurd hb2 (List.not_mem_nil b)
  case pos => exact mem_u_escape _ _ hb
  case neg =>
    rcases List.mem_cons.mp hb with rfl | hb2
    · omega
    rcases List.mem_cons.mp hb2 with rfl | hb3
    · omega
    rcases List.mem_append.mp hb3 with hb4 | hb4
    · exact hex4_ascii _ b hb4
    · exact mem_u_escape _ _ hb4

theorem escString_ascii (s : List Char) : ∀ b ∈ escString s, b < 128 := by
  induction s with
  | nil => simp [escString]
  | cons c t ih =>
    intro b hb
    simp only [escString, List.mem_append] at hb
    rcases hb with hb | hb
    · exact escapeChar_ascii c b hb
    · exact ih b hb

theorem dumpStr_ascii (s : String) : ∀ b ∈ dumpStr s, b < 128 := by
  intro b hb
  rw [show dumpStr s = 34 :: (escString s.data ++ [34]) from by simp [dumpStr]] at hb
  rcases List.mem_cons.mp hb with rfl | hb2
  · omega
  rcases List.mem_append.mp hb2 with hb3 | hb3
  · exact escString_ascii s.data b hb3
  · rcases List.mem_cons.mp hb3 with rfl | hb4
    · omega
    · exact absurd hb4 (List.not_mem_nil b)

theorem dumpNat_ascii (n : Nat) : ∀ b ∈ dumpNat n, b < 128 := by
  intro b hb
  simp only [dumpNat, List.mem_map] at hb
  obtain ⟨d, hd, rfl⟩ := hb
  have := digitsOf_lt10 n d hd
  omega

theorem dumpInnerPair_ascii (kv : String × String) :
    ∀ b ∈ dumpStr kv.1 ++ 58 :: 32 :: dumpStr kv.2, b < 128 := by
  intro b hb
  rcases List.mem_append.mp hb with hb2 | hb2
  · exact dumpStr_ascii kv.1 b hb2
  rcases List.mem_cons.mp hb2 with rfl | hb3
  · omega
  rcases List.mem_cons.mp hb3 with rfl | hb4
  · omega
  · exact dumpStr_ascii kv.2 b hb4

theorem dumpInnerPairs_ascii (kvs : List (String × String)) :
    ∀ b ∈ dumpInnerPairs kvs, b < 128 := by
  induction kvs with
  | nil => simp [dumpInnerPairs]
  | cons kv t ih =>
    intro b hb
    cases t with
    | nil =>
      rw [show dumpInnerPairs [kv] = dumpStr kv.1 ++ 58 :: 32 :: dumpStr kv.2 from rfl] at hb
      exact dumpInnerPair_ascii kv b hb
    | cons kv2 t2 =>
      rw [show dumpInnerPairs (kv :: kv2 :: t2) =
        (dumpStr kv.1 ++ 58 :: 32 :: dumpStr kv.2) ++ 44 :: 32 :: dumpInnerPairs (kv2 :: t2)
        from rfl] at hb
      rcases List.mem_append.mp hb with hb2 | hb2
      · exact dumpInnerPair_ascii kv b hb2
      rcases List.mem_cons.mp hb2 with rfl | hb3
      · omega
      rcases List.mem_cons.mp hb3 with rfl | hb4
      · omega
      · exact ih b hb4

theorem dumpVal_ascii (v : JVal) : ∀ b ∈ dumpVal v, b < 128 := by
  intro b hb
  cases v with
  | s str => exact dumpStr_ascii str b hb
  | n m => exact dumpNat_ascii m b hb
  | o kvs =>
    rw [show dumpVal (JVal.o kvs) = 123 :: (dumpInnerPairs kvs ++ [125]) from by
      simp [dumpVal, dumpInner]] at hb
    rcases List.mem_cons.mp hb with rfl | hb2
    · omega
    rcases List.mem_append.mp hb2 with hb3 | hb3
    · exact dumpInnerPairs_ascii kvs b hb3
    · rcases List.mem_cons.mp hb3 with rfl | hb4
      · omega
      · exact absurd hb4 (List.not_mem_nil b)

theorem dumpPair_ascii (kv : String × JVal) : ∀ b ∈ dumpPair kv, b < 128 := by
  intro b hb
  rw [show dumpPair kv = dumpStr kv.1 ++ 58 :: 32 :: dumpVal kv.2 from rfl] at hb
  rcases List.mem_append.mp hb with hb2 | hb2
  · exact dumpStr_ascii kv.1 b hb2
  rcases List.mem_cons.mp hb2 with rfl | hb3
  · omega
  rcases List.mem_cons.mp hb3 with rfl | hb4
  · omega
  · exact dumpVal_ascii kv.2 b hb4

theorem dumpPairs_ascii (kvs : Header) : ∀ b ∈ dumpPairs kvs, b < 128 := by
  induction kvs with
  | nil => simp [dumpPairs]
  | cons kv t ih =>
    intro b hb
    cases t with
    | nil =>
      rw [show dumpPairs [kv] = dumpPair kv from rfl] at hb
      exact dumpPair_ascii kv b hb
    | cons kv2 t2 =>
      rw [show dumpPairs (kv :: kv2 :: t2) =
        dumpPair kv ++ 44 :: 32 :: dumpPairs (kv2 :: t2) from rfl] at hb
      rcases List.mem_append.mp hb with hb2 | hb2
      · exact dumpPair_ascii kv b hb2
      rcases List.mem_cons.mp hb2 with rfl | hb3
      · omega
      rcases List.mem_cons.mp hb3 with rfl | hb4
      · omega
      · exact ih b hb4

theorem dumps_ascii (h : Header) : ∀ b ∈ dumps h, b < 128 := by
  intro b hb
  rw [show dumps h = 123 :: (dumpPairs h ++ [125]) from by simp [dumps]] at hb
  rcases List.mem_cons.mp hb with rfl | hb2
  · omega
  rcases List.mem_append.mp hb2 with hb3 | hb3
  · exact dumpPairs_ascii h b hb3
  · rcases List.mem_cons.mp hb3 with rfl | hb4
    · omega
    · exact absurd hb4 (List.not_mem_nil b)

theorem decodeUtf8F_ascii (l : List Nat) : ∀ (fuel : Nat), l.length < fuel →
    (∀ b ∈ l, b < 128) → decodeUtf8F fuel l = some l := by
  induction l with
  | nil =>
    intro fuel hf _
    obtain ⟨f, rfl⟩ : ∃ f, fuel = f + 1 := ⟨fuel - 1, by omega⟩
    rfl
  | cons b t ih =>
    intro fuel hf hascii
    obtain ⟨f, rfl⟩ : ∃ f, fuel = f + 1 := ⟨fuel - 1, by omega⟩
    simp only [decodeUtf8F]
    rw [if_pos (hascii b (by simp))]
    rw [ih f (by simpa using hf) (fun x hx => hascii x (by simp [hx]))]
    rfl

theorem decodeUtf8_ascii (l : List Nat) (h : ∀ b ∈ l, b < 128) : decodeUtf8 l = some l :=
  decodeUtf8F_ascii l (l.length + 1) (by omega) h

theorem decodeLoads_dumps (h : Header) (hwf : headerWF h) : decodeLoads (dumps h) = some h := by
  unfold decodeLoads
  rw [decodeUtf8_ascii (dumps h) (dumps_ascii h), Option.some_bind]
  exact loads_dumps h hwf

theorem unU32be_u32be (n : Nat) (h : n < 4294967296) :
    unU32be (n / 16777216 % 256) (n / 65536 % 256) (n / 256 % 256) (n % 256) = n := by
  unfold unU32be
  omega

/-- Core framing round trip: the bytes written by `send_message`, followed by
any further stream content, read back as exactly the frame that was written,
with the further content untouched. -/
theorem read_message_send_message (H : Header) (P : List Nat) (extra : List Nat)
    (hwf : headerWF H)
    (hbl : hget H "body_len" = some (JVal.n P.length) ∨
      (hget H "body_len" = none ∧ P = []))
    (hlen : (dumps H).length < 4294967296) :
    read_message (u32be (dumps H).length ++ dumps H ++ P ++ extra) = .ok ((H, P), extra) := by
  rw [show u32be (dumps H).length ++ dumps H ++ P ++ extra =
    ((dumps H).length / 16777216 % 256) :: ((dumps H).length / 65536 % 256) ::
    ((dumps H).length / 256 % 256) :: ((dumps H).length % 256) ::
    (dumps H ++ (P ++ extra)) from by simp [u32be]]
  have hdec := decodeLoads_dumps H hwf
  simp only [read_message]
  rw [unU32be_u32be (dumps H).length hlen]
  rw [if_neg (by
    simp only [List.length_append]
    omega)]
  rw [List.take_left, List.drop_left]
  simp only [hdec]
  rcases hbl with hbl | ⟨hbl, rfl⟩
  · have hbv : bodyLenVal H = some P.length := by
      unfold bodyLenVal
      rw [hbl]
    simp only [hbv]
    by_cases hp : 0 < P.length
    · rw [if_pos hp]
      rw [if_neg (by
        simp only [List.length_append]
        omega)]
      rw [List.take_left, List.drop_left]
    · obtain rfl : P = [] := by
        cases P
        · rfl
        · simp at hp
      simp
  · have hbv : bodyLenVal H = some 0 := by
      unfold bodyLenVal
      rw [hbl]
    simp only [hbv]
    simp

/-! ### Claim C2: framing round trip -/

/-- C2: for every header dictionary `H` whose `body_len` field equals the
length of payload `P` (or is absent with `P` empty), the byte sequence
produced by `send_message (H, P)` reads back through `read_message` as
exactly `(H, P)`, leaving any following stream content untouched. -/
theorem c2_framing_round_trip (H : Header) (P : List Nat)
    (hwf : headerWF H)
    (hbl : hget H "body_len" = some (JVal.n P.length) ∨
      (hget H "body_len" = none ∧ P = []))
    (hlen : (dumps H).length < 4294967296) :
    send_message H P = some (u32be (dumps H).length ++ dumps H ++ P) ∧
    ∀ extra, read_message (u32be (dumps H).length ++ dumps H ++ P ++ extra) =
      Except.ok ((H, P), extra) := by
  constructor
  · unfold send_message
    rw [if_pos hlen]
  · intro extra
    exact read_message_send_message H P extra hwf hbl hlen

/-- Witness for C2 at a concrete frame: a DATA header with a 3-byte payload
round-trips, and the two trailing stream bytes are preserved. -/
theorem c2_framing_round_trip_witness :
    read_message (u32be (dumps [("type", JVal.s "DATA"), ("body_len", JVal.n 3)]).length ++
      dumps [("type", JVal.s "DATA"), ("body_len", JVal.n 3)] ++ [1, 2, 3] ++ [9, 9]) =
      Except.ok (([("type", JVal.s "DATA"), ("body_len", JVal.n 3)], [1, 2, 3]), [9, 9]) :=
  (c2_framing_round_trip [("type", JVal.s "DATA"), ("body_len", JVal.n 3)] [1, 2, 3]
    (by decide) (Or.inl (by decide)) (by decide)).2 [9, 9]

/-! ### Claim C4: truncated frames fail with LinkClosed; success consumes
exactly one frame -/

/-- C4: a stream that ends before a complete frame has been delivered makes
`read_message` fail with `LinkClosed` — whether the end falls inside the
4-byte length prefix, the header bytes, or the `body_len` payload bytes —
and a successful read decomposes the stream into exactly one whole frame
followed by the untouched remainder. -/
theorem c4_truncated_frame_linkClosed (s : List Nat) :
    (s.length < 4 → read_message s = Except.error RErr.linkClosed) ∧
    (∀ b0 b1 b2 b3 rest, s = b0 :: b1 :: b2 :: b3 :: rest →
      rest.length < unU32be b0 b1 b2 b3 →
      read_message s = Except.error RErr.linkClosed) ∧
    (∀ b0 b1 b2 b3 rest hd bl, s = b0 :: b1 :: b2 :: b3 :: rest →
      ¬ rest.length < unU32be b0 b1 b2 b3 →
      decodeLoads (rest.take (unU32be b0 b1 b2 b3)) = some hd →
      bodyLenVal hd = some bl → 0 < bl →
      (rest.drop (unU32be b0 b1 b2 b3)).length < bl →
      read_message s = Except.error RErr.linkClosed) ∧
    (∀ hd body rest2, read_message s = Except.ok ((hd, body), rest2) →
      ∃ b0 b1 b2 b3 hj, s = b0 :: b1 :: b2 :: b3 :: (hj ++ body ++ rest2) ∧
        hj.length = unU32be b0 b1 b2 b3 ∧ decodeLoads hj = some hd ∧
        bodyLenVal hd = some body.length) := by
  refine ⟨?_, ?_, ?_, ?_⟩
  · intro h
    rcases s with _ | ⟨a, s⟩
    · rfl
    rcases s with _ | ⟨b, s⟩
    · rfl
    rcases s with _ | ⟨c, s⟩
    · rfl
    rcases s with _ | ⟨d, s⟩
    · rfl
    simp only [List.length_cons] at h
    omega
  · intro b0 b1 b2 b3 rest hs h2
    subst hs
    simp only [read_message]
    rw [if_pos h2]
  · intro b0 b1 b2 b3 rest hd bl hs h2 hdec hbv hbl hshort
    subst hs
    simp only [read_message]
    rw [if_neg h2]
    simp only [hdec, hbv]
    rw [if_pos hbl, if_pos hshort]
  · intro hd body rest2 hok
    rcases s with _ | ⟨b0, s⟩
    · simp [read_message] at hok
    rcases s with _ | ⟨b1, s⟩
    · simp [read_message] at hok
    rcases s with _ | ⟨b2, s⟩
    · simp [read_message] at hok
    rcases s with _ | ⟨b3, rest⟩
    · simp [read_message] at hok
    simp only [read_message] at hok
    by_cases hl : rest.length < unU32be b0 b1 b2 b3
    · rw [if_pos hl] at hok
      exact absurd hok (by simp)
    rw [if_neg hl] at hok
    have htklen : (rest.take (unU32be b0 b1 b2 b3)).length = unU32be b0 b1 b2 b3 := by
      rw [List.length_take]
      omega
    cases hdec : decodeLoads (rest.take (unU32be b0 b1 b2 b3)) with
    | none =>
      simp only [hdec] at hok
      exact absurd hok (by simp)
    | some hd2 =>
      simp only [hdec] at hok
      cases hbv : bodyLenVal hd2 with
      | none =>
        simp only [hbv] at hok
        exact absurd hok (by simp)
      | some bl =>
        simp only [hbv] at hok
        by_cases hbl0 : 0 < bl
        · rw [if_pos hbl0] at hok
          by_cases hdl : (rest.drop (unU32be b0 b1 b2 b3)).length < bl
          · rw [if_pos hdl] at hok
            exact absurd hok (by simp)
          · rw [if_neg hdl] at hok
            simp only [Except.ok.injEq, Prod.mk.injEq] at hok
            obtain ⟨⟨hhd, hbody⟩, hrest2⟩ := hok
            subst hhd
            subst hbody
            subst hrest2
            refine ⟨b0, b1, b2, b3, rest.take (unU32be b0 b1 b2 b3), ?_, htklen, hdec, ?_⟩
            · rw [List.append_assoc]
              rw [show (rest.drop (unU32be b0 b1 b2 b3)).take bl ++
                (rest.drop (unU32be b0 b1 b2 b3)).drop bl =
                rest.drop (unU32be b0 b1 b2 b3) from List.take_append_drop bl _]
              rw [List.take_append_drop]
            · rw [hbv]
              congr 1
              rw [List.length_take]
              omega
        · rw [if_neg hbl0] at hok
          simp only [Except.ok.injEq, Prod.mk.injEq] at hok
          obtain ⟨⟨hhd, hbody⟩, hrest2⟩ := hok
          subst hhd
          subst hrest2
          obtain rfl : body = [] := hbody.symm
          refine ⟨b0, b1, b2, b3, rest.take (unU32be b0 b1 b2 b3), ?_, htklen, hdec, ?_⟩
          · simp only [List.append_nil]
            rw [List.take_append_drop]
          · rw [hbv]
            simp only [List.length_nil]
            congr 1
            omega

/-- Witness for C4 at concrete truncated streams: end-of-stream inside the
length prefix, and inside the declared payload. -/
theorem c4_truncated_frame_linkClosed_witness :
    read_message [0, 0, 0] = Except.error RErr.linkClosed ∧
    read_message [0, 0, 0, 5, 1, 2] = Except.error RErr.linkClosed := by
  constructor
  · exact (c4_truncated_frame_linkClosed [0, 0, 0]).1 (by decide)
  · exact (c4_truncated_frame_linkClosed [0, 0, 0, 5, 1, 2]).2.1 0 0 0 5 [1, 2] rfl (by decide)

/-! ### Component models: Offshore dispatcher and Ship handlers -/

/-- UTF-8 encoding of one code point (`str.encode()`). -/
def encodeChar (n : Nat) : List Nat :=
  if n < 128 then [n]
  else if n < 2048 then [192 + n / 64, 128 + n % 64]
  else if n < 65536 then [224 + n / 4096, 128 + n / 64 % 64, 128 + n % 64]
  else [240 + n / 262144, 128 + n / 4096 % 64, 128 + n / 64 % 64, 128 + n % 64]

/-- UTF-8 encoding of a character list. -/
def encodeChars : List Char → List Nat
  | [] => []
  | c :: t => encodeChar c.toNat ++ encodeChars t

/-- UTF-8 bytes of a string, as written to the client socket by
`client_writer.write(....encode())`. -/
def encodeUtf8 (s : String) : List Nat := encodeChars s.data

/-- Outcome of the outbound HTTP call on Offshore (the `aiohttp` session
request): status code, response headers and fully-read body on success, or
any raised error (DNS, connection, timeout, response-read). -/
abbrev FetchResult := Except String (Nat × List (String × String) × List Nat)

/-- The header of the synthetic 502 frame built by
`OffshoreServer._handle_http_request` when the outbound call fails. -/
def syn502Header : Header :=
  [("type", JVal.s "HTTPResponse"), ("status_code", JVal.n 502),
    ("headers", JVal.o [("Content-Length", "11")]), ("body_len", JVal.n 11)]

/-- The bytes of `b'Bad Gateway'`. -/
def badGatewayBody : List Nat := encodeUtf8 "Bad Gateway"

/-- `OffshoreServer._handle_http_request`: the `HTTPResponse` frame the
dispatcher sends on the uplink, as a function of the outbound call outcome. -/
def offshore_handle_http_request (fetch : FetchResult) : Header × List Nat :=
  match fetch with
  | .ok (st, hs, rbody) =>
    ([("type", JVal.s "HTTPResponse"), ("status_code", JVal.n st),
      ("headers", JVal.o hs), ("body_len", JVal.n rbody.length)], rbody)
  | .error _ => (syn502Header, badGatewayBody)

/-- Rendering of `resp_header.get('status_code', 502)` into the status line
(`str()` of the value).  Only integers ever occur on the wire; a string
would be echoed, and a dict (which `str()` would render with Python's repr,
never produced by either peer) is modelled opaquely as no bytes. -/
def renderStatus : Option JVal → List Nat
  | some (JVal.n v) => dumpNat v
  | none => dumpNat 502
  | some (JVal.s s) => encodeUtf8 s
  | some (JVal.o _) => []

/-- The `K: V` lines written back to the client for the response headers. -/
def renderKVs : List (String × String) → List Nat
  | [] => []
  | kv :: t => encodeUtf8 kv.1 ++ encodeUtf8 ": " ++ encodeUtf8 kv.2 ++ [13, 10] ++ renderKVs t

/-- `resp_header.get('headers', {})` followed by the `.items()` loop.  A
non-dict value would raise in Python and is never produced; modelled as no
lines. -/
def renderHeaderLines : Option JVal → List Nat
  | some (JVal.o kvs) => renderKVs kvs
  | _ => []

/-- The bytes `ShipProxy._handle_http_request` writes to the client for a
frame read from the uplink: the literal 502 page when the frame is not an
`HTTPResponse`, otherwise status line, header lines, blank line and payload. -/
def ship_render_response (h : Header) (body : List Nat) : List Nat :=
  if ¬ hget h "type" = some (JVal.s "HTTPResponse") then
    encodeUtf8 "HTTP/1.1 502 Bad Gateway\r\nContent-Length: 11\r\n\r\nBad Gateway"
  else
    encodeUtf8 "HTTP/1.1 " ++ renderStatus (hget h "status_code") ++ encodeUtf8 " OK\r\n" ++
      renderHeaderLines (hget h "headers") ++ encodeUtf8 "\r\n" ++ body

/-! ### Claim C3: 502 synthesis on outbound HTTP failure -/

/-- C3: for every failure of the outbound HTTP call, Offshore emits a
synthetic `HTTPResponse` frame with status 502, the 11-byte payload
`Bad Gateway`, `body_len` 11 and a `Content-Length: 11` header; the frame
survives the wire codec intact, and the Ship then writes the client an HTTP
response with status code 502 and body `Bad Gateway`. -/
theorem c3_502_synthesis (e : String) :
    offshore_handle_http_request (Except.error e) = (syn502Header, badGatewayBody) ∧
    badGatewayBody = [66, 97, 100, 32, 71, 97, 116, 101, 119, 97, 121] ∧
    badGatewayBody.length = 11 ∧
    hget syn502Header "type" = some (JVal.s "HTTPResponse") ∧
    hget syn502Header "status_code" = some (JVal.n 502) ∧
    hget syn502Header "body_len" = some (JVal.n 11) ∧
    hget syn502Header "headers" = some (JVal.o [("Content-Length", "11")]) ∧
    read_message (u32be (dumps syn502Header).length ++ dumps syn502Header ++ badGatewayBody) =
      Except.ok ((syn502Header, badGatewayBody), []) ∧
    ship_render_response syn502Header badGatewayBody =
      encodeUtf8 "HTTP/1.1 502 OK\r\nContent-Length: 11\r\n\r\nBad Gateway" := by
  refine ⟨rfl, by decide, by decide, by decide, by decide, by decide, by decide, by rfl, by decide⟩

/-! ### Claim C8: CONNECT handshake on the Ship -/

/-- Result of `ShipProxy._handle_connect` up to tunnel entry: the CONNECT
frame written to the uplink, the bytes written to the client, whether the
client socket was closed without a tunnel, and whether tunnel mode began. -/
structure ConnectOutcome where
  sentHeader : Header
  sentBody : List Nat
  clientBytes : List Nat
  closedNoTunnel : Bool
  tunnel : Bool
deriving DecidableEq, Repr

/-- The literal 502 page `_handle_connect` writes on a failed handshake. -/
def connect502Page : List Nat :=
  encodeUtf8 "HTTP/1.1 502 Bad Gateway\r\nContent-Length: 11\r\n\r\nBad Gateway"

/-- The literal success reply of `_handle_connect`. -/
def connect200Page : List Nat := encodeUtf8 "HTTP/1.1 200 Connection Established\r\n\r\n"

/-- `ShipProxy._handle_connect` up to tunnel entry, as a function of the one
frame read from the uplink after the CONNECT frame is sent. -/
def ship_handle_connect (host : String) (port : Nat) (reply : Header × List Nat) :
    ConnectOutcome :=
  let sent : Header := [("type", JVal.s "CONNECT"), ("host", JVal.s host),
    ("port", JVal.n port)]
  if ¬ hget reply.1 "type" = some (JVal.s "CONNECT_OK") then
    { sentHeader := sent, sentBody := [], clientBytes := connect502Page,
      closedNoTunnel := true, tunnel := false }
  else
    { sentHeader := sent, sentBody := [], clientBytes := connect200Page,
      closedNoTunnel := false, tunnel := true }

/-- C8: the Ship CONNECT handler emits a CONNECT frame carrying host and
port with no payload; if the single frame then read is not `CONNECT_OK` it
writes the 502 page and closes without entering tunnel mode, and if it is
`CONNECT_OK` it writes exactly `HTTP/1.1 200 Connection Established\r\n\r\n`
before entering tunnel mode. -/
theorem c8_connect_handshake (host : String) (port : Nat) (reply : Header × List Nat) :
    (ship_handle_connect host port reply).sentHeader =
      [("type", JVal.s "CONNECT"), ("host", JVal.s host), ("port", JVal.n port)] ∧
    (ship_handle_connect host port reply).sentBody = [] ∧
    (¬ hget reply.1 "type" = some (JVal.s "CONNECT_OK") →
      (ship_handle_connect host port reply).clientBytes = connect502Page ∧
      (ship_handle_connect host port reply).closedNoTunnel = true ∧
      (ship_handle_connect host port reply).tunnel = false) ∧
    (hget reply.1 "type" = some (JVal.s "CONNECT_OK") →
      (ship_handle_connect host port reply).clientBytes = connect200Page ∧
      (ship_handle_connect host port reply).closedNoTunnel = false ∧
      (ship_handle_connect host port reply).tunnel = true) := by
  by_cases h : hget reply.1 "type" = some (JVal.s "CONNECT_OK")
  · rw [show ship_handle_connect host port reply =
      { sentHeader := [("type", JVal.s "CONNECT"), ("host", JVal.s host),
          ("port", JVal.n port)], sentBody := [], clientBytes := connect200Page,
        closedNoTunnel := false, tunnel := true } from by
      unfold ship_handle_connect
      rw [if_neg (by simp [h])]]
    exact ⟨rfl, rfl, fun hc => absurd h hc, fun _ => ⟨rfl, rfl, rfl⟩⟩
  · rw [show ship_handle_connect host port reply =
      { sentHeader := [("type", JVal.s "CONNECT"), ("host", JVal.s host),
          ("port", JVal.n port)], sentBody := [], clientBytes := connect502Page,
        closedNoTunnel := true, tunnel := false } from by
      unfold ship_handle_connect
      rw [if_pos h]]
    exact ⟨rfl, rfl, fun _ => ⟨rfl, rfl, rfl⟩, fun hc => absurd hc h⟩

/-- Witness for C8 at concrete replies: an ERROR frame yields the 502 page
with no tunnel, a CONNECT_OK frame yields the 200 reply and tunnel entry. -/
theorem c8_connect_handshake_witness :
    (ship_handle_connect "example.com" 443 ([("type", JVal.s "ERROR")], [])).clientBytes =
      connect502Page ∧
    (ship_handle_connect "example.com" 443 ([("type", JVal.s "CONNECT_OK")], [])).clientBytes =
      connect200Page :=
  ⟨((c8_connect_handshake "example.com" 443 ([("type", JVal.s "ERROR")], [])).2.2.1
      (by decide)).1,
    ((c8_connect_handshake "example.com" 443 ([("type", JVal.s "CONNECT_OK")], [])).2.2.2
      (by decide)).1⟩

/-! ### Claim C6: the Ship tunnel loop on unexpected frame types -/

/-- A sequence of decoded frames delivered by the uplink codec. -/
abbrev Frames := List (Header × List Nat)

/-- How the uplink-to-client sub-task of the Ship CONNECT bridge ended. -/
inductive TunnelEnd where
  | dataEnd
  | streamEnd
deriving DecidableEq, Repr

/-- `read_offshore_write` of `ShipProxy._handle_connect`: reads frames from
the uplink until `DATA_END` or stream end, writing DATA payloads to the
client.  Returns the bytes written to the client, the frames left
unconsumed on the uplink, and how the loop ended.  The end of the frame
list models `read_message` raising (the `except` branch returns). -/
def read_offshore_write : Frames → List Nat × Frames × TunnelEnd
  | [] => ([], [], .streamEnd)
  | (h, b) :: rest =>
    if hget h "type" = some (JVal.s "DATA") then
      ((b ++ (read_offshore_write rest).1, (read_offshore_write rest).2.1,
        (read_offshore_write rest).2.2))
    else if hget h "type" = some (JVal.s "DATA_END") then ([], rest, .dataEnd)
    else read_offshore_write rest

/-- The claim as stated (spec wording): a frame of any type other than DATA
or DATA_END terminates the tunnel as an error, so nothing past it can be
forwarded to the client. -/
def c6SpecUnknownFrameTerminates : Prop :=
  ∀ (h : Header) (b : List Nat) (rest : Frames),
    ¬ hget h "type" = some (JVal.s "DATA") →
    ¬ hget h "type" = some (JVal.s "DATA_END") →
    (read_offshore_write ((h, b) :: rest)).1 = []

/-- Counterexample to C6 as stated: after an unexpected `PING` frame the
loop keeps running — the payload of a later DATA frame is still written to
the client, so the unexpected frame did not terminate the tunnel. -/
theorem c6_unknown_frame_cex : ¬ c6SpecUnknownFrameTerminates := by
  intro hspec
  have h := hspec [("type", JVal.s "PING")] []
    [([("type", JVal.s "DATA")], [65]), ([("type", JVal.s "DATA_END")], [])]
    (by decide) (by decide)
  exact absurd h (by decide)

/-- C6 amended: for every frame read from the uplink the sub-task writes the
payload to the client if the type is DATA and terminates if the type is
DATA_END, but any other frame type is merely logged and skipped — the loop
continues with the remaining frames. -/
theorem c6_tunnel_loop_amended (h : Header) (b : List Nat) (rest : Frames) :
    (hget h "type" = some (JVal.s "DATA") →
      read_offshore_write ((h, b) :: rest) =
        (b ++ (read_offshore_write rest).1, (read_offshore_write rest).2.1,
          (read_offshore_write rest).2.2)) ∧
    (hget h "type" = some (JVal.s "DATA_END") →
      read_offshore_write ((h, b) :: rest) = ([], rest, TunnelEnd.dataEnd)) ∧
    (¬ hget h "type" = some (JVal.s "DATA") →
      ¬ hget h "type" = some (JVal.s "DATA_END") →
      read_offshore_write ((h, b) :: rest) = read_offshore_write rest) := by
  refine ⟨?_, ?_, ?_⟩
  · intro hd
    simp [read_offshore_write, hd]
  · intro hd
    have hne : ¬ hget h "type" = some (JVal.s "DATA") := by
      rw [hd]
      decide
    simp [read_offshore_write, hd, hne]
  · intro h1 h2
    simp [read_offshore_write, h1, h2]

/-- Witness for the amended C6 at a concrete frame sequence: the unexpected
frame is skipped and processing continues. -/
theorem c6_tunnel_loop_amended_witness :
    read_offshore_write [([("type", JVal.s "PING")], []),
      ([("type", JVal.s "DATA")], [65])] =
      read_offshore_write [([("type", JVal.s "DATA")], [65])] :=
  (c6_tunnel_loop_amended [("type", JVal.s "PING")] []
    [([("type", JVal.s "DATA")], [65])]).2.2 (by decide) (by decide)

/-! ### Claim C7: DATA_END handling in the Offshore bridge -/

/-- The two directions of the target socket on Offshore. -/
structure TargetSock where
  readOpen : Bool
  writeOpen : Bool
deriving DecidableEq, Repr

/-- `StreamWriter.close()` on the target writer: closes the transport, that
is, the whole socket — both directions.  (A half-close of the write side
alone would be `write_eof()`, which the code does not call.) -/
def closeTransport (_s : TargetSock) : TargetSock := { readOpen := false, writeOpen := false }

/-- `ship_to_target` of `OffshoreServer._handle_connect`: forwards DATA
payloads to the target and on DATA_END closes the target writer and stops.
Returns the bytes written to the target, the unconsumed frames, and the
final target-socket state. -/
def ship_to_target : Frames → TargetSock → List Nat × Frames × TargetSock
  | [], s => ([], [], s)
  | (h, b) :: rest, s =>
    if hget h "type" = some (JVal.s "DATA") then
      ((b ++ (ship_to_target rest s).1, (ship_to_target rest s).2.1,
        (ship_to_target rest s).2.2))
    else if hget h "type" = some (JVal.s "DATA_END") then ([], rest, closeTransport s)
    else ship_to_target rest s

/-- The claim as stated (spec wording): on DATA_END only the write side of
the target socket is closed; the read side keeps its previous state so the
target-to-uplink direction can continue reading. -/
def c7SpecHalfClose : Prop :=
  ∀ (b : List Nat) (rest : Frames) (s : TargetSock),
    (ship_to_target (([("type", JVal.s "DATA_END")], b) :: rest) s).2.2 =
      { readOpen := s.readOpen, writeOpen := false }

/-- Counterexample to C7 as stated: with the target fully open, a DATA_END
frame leaves the read side closed as well — the code calls `close()`, a full
transport close, not a half-close. -/
theorem c7_half_close_cex : ¬ c7SpecHalfClose := by
  intro hspec
  have h := hspec [] [] { readOpen := true, writeOpen := true }
  exact absurd h (by decide)

/-- C7 amended: on DATA_END the uplink-to-target sub-task closes the target
socket entirely (read and write sides) and terminates without consuming
further frames; the target-to-uplink direction subsequently observes
end-of-stream rather than continuing to read pending data. -/
theorem c7_dataEnd_closes_target (h : Header) (b : List Nat) (rest : Frames)
    (s : TargetSock) (hd : hget h "type" = some (JVal.s "DATA_END")) :
    ship_to_target ((h, b) :: rest) s =
      ([], rest, { readOpen := false, writeOpen := false }) := by
  have hne : ¬ hget h "type" = some (JVal.s "DATA") := by
    rw [hd]
    decide
  simp [ship_to_target, hd, hne, closeTransport]

/-- Witness for the amended C7 at a concrete frame and open socket. -/
theorem c7_dataEnd_closes_target_witness :
    ship_to_target [([("type", JVal.s "DATA_END")], [])] { readOpen := true, writeOpen := true } =
      ([], [], { readOpen := false, writeOpen := false }) :=
  c7_dataEnd_closes_target [("type", JVal.s "DATA_END")] [] []
    { readOpen := true, writeOpen := true } (by decide)

/-! ### Claim C9: malformed request lines are dropped silently -/

/-- What the Ship acceptor does with one parsed request head. -/
inductive ClientAction where
  | closeSilent
  | enqueueConnect (host : String) (port : Nat)
  | enqueueHttp (method : String) (target : String)
deriving DecidableEq, Repr

/-- Python `str.split(sep)` with a one-character separator: splits at every
occurrence, keeping empty pieces. -/
def splitOnCharAux (sep : Char) : List Char → List Char → List (List Char)
  | [], cur => [cur.reverse]
  | c :: t, cur =>
    if c = sep then cur.reverse :: splitOnCharAux sep t [] else splitOnCharAux sep t (c :: cur)

/-- Python `str.split(sep)` for a one-character separator. -/
def splitOnChar (sep : Char) (l : List Char) : List (List Char) := splitOnCharAux sep l []

/-- Python `str.upper()` on the ASCII letters of an HTTP method; other
characters are untouched (and can never make the method equal CONNECT). -/
def upperChar (c : Char) : Char :=
  if 97 ≤ c.toNat ∧ c.toNat ≤ 122 then Char.ofNat (c.toNat - 32) else c

/-- Python `int()` on a CONNECT port string, restricted to the plain ASCII
digit strings that occur in proxy requests; anything else raises, and the
handler's `except` closes the socket. -/
def decToNat (s : List Char) : Option Nat :=
  if ¬ s = [] ∧ ∀ c ∈ s, 48 ≤ c.toNat ∧ c.toNat ≤ 57 then
    some (s.foldl (fun a c => a * 10 + (c.toNat - 48)) 0)
  else none

/-- The request-line dispatch of `ShipProxy.handle_client`: an empty read
(client vanished) or a line with fewer than three space-separated parts
closes the client socket silently — nothing is written back and no work item
is enqueued (hence no uplink traffic for this client).  Otherwise a CONNECT
work item (default port 443, `int(port)` failures close) or an HTTP work
item is enqueued.  Reading of the remaining header lines and body is not
modelled here; it happens after this dispatch and does not affect the
malformed-line path. -/
def handle_client_head (line : String) : ClientAction :=
  if line = "" then .closeSilent
  else
    let parts := splitOnChar ' ' line.data
    if parts.length < 3 then .closeSilent
    else
      let method := parts.getD 0 []
      let target := parts.getD 1 []
      if method.map upperChar = "CONNECT".data then
        match splitOnChar ':' target with
        | [h] => .enqueueConnect (String.mk h) 443
        | [h, p] =>
          match decToNat p with
          | some n => .enqueueConnect (String.mk h) n
          | none => .closeSilent
        | _ => .closeSilent
      else .enqueueHttp (String.mk method) (String.mk target)

/-- Does an action enqueue a work item onto the shared queue? -/
def actionEnqueues : ClientAction → Bool
  | .closeSilent => false
  | .enqueueConnect _ _ => true
  | .enqueueHttp _ _ => true

/-- C9: a request line that does not split into the three parts
method / target / protocol makes the acceptor close the client socket
silently: the action is `closeSilent`, which writes nothing back to the
client and enqueues no work item — and with nothing enqueued the serializer
never touches the uplink for this client. -/
theorem c9_malformed_line_silent_close (line : String)
    (h : (splitOnChar ' ' line.data).length < 3) :
    handle_client_head line = ClientAction.closeSilent ∧
    actionEnqueues (handle_client_head line) = false := by
  have hc : handle_client_head line = ClientAction.closeSilent := by
    unfold handle_client_head
    by_cases h0 : line = ""
    · rw [if_pos h0]
    · rw [if_neg h0, if_pos h]
  exact ⟨hc, by rw [hc]; rfl⟩

/-- Witness for C9 at a concrete two-token request line. -/
theorem c9_malformed_line_silent_close_witness :
    handle_client_head "GET /x" = ClientAction.closeSilent :=
  (c9_malformed_line_silent_close "GET /x" (by decide)).1

/-! ### Claim C5: redial on the next work item after the uplink closed -/

/-- The uplink connection as the Ship holds it: an identity (dial counter)
and the writer's `is_closing` flag, which is set once the transport is
closing — in particular after the connection to the peer has been lost. -/
structure Conn where
  id : Nat
  closing : Bool
deriving DecidableEq, Repr

/-- Ship connection state: the current offshore connection, if any, and the
counter that distinguishes fresh dials. -/
structure ShipState where
  offshore : Option Conn
  nextId : Nat
deriving DecidableEq, Repr

/-- `asyncio.open_connection` to the offshore peer: a fresh open connection
replaces the stored reader/writer pair. -/
def dialOffshore (s : ShipState) : ShipState :=
  { offshore := some { id := s.nextId, closing := false }, nextId := s.nextId + 1 }

/-- `ShipProxy.ensure_offshore` (the body under the connection lock): keep
the current connection exactly when the writer exists and is not closing,
otherwise dial anew. -/
def ensure_offshore (s : ShipState) : ShipState :=
  match s.offshore with
  | some c => if c.closing = false then s else dialOffshore s
  | none => dialOffshore s

/-- The connection-relevant part of one `_worker` iteration:
`ensure_offshore` runs first, and the dequeued handler then uses
`self.offshore_writer`, i.e. the connection of the ensured state. -/
def workerProcessItem (s : ShipState) : ShipState × Option Conn :=
  (ensure_offshore s, (ensure_offshore s).offshore)

/-- C5: when the stored uplink connection is closing (the peer closed it),
processing the next dequeued work item first re-establishes the uplink: the
handler runs against a fresh, open connection distinct from the old one. -/
theorem c5_redial_on_closed_uplink (s : ShipState) (c : Conn)
    (hconn : s.offshore = some c) (hclosed : c.closing = true) (hid : c.id < s.nextId) :
    (workerProcessItem s).2 = some { id := s.nextId, closing := false } ∧
    ∀ c2, (workerProcessItem s).2 = some c2 → ¬ c2.id = c.id ∧ c2.closing = false := by
  have hens : ensure_offshore s = dialOffshore s := by
    unfold ensure_offshore
    simp only [hconn]
    rw [if_neg (by rw [hclosed]; decide)]
  constructor
  · rw [show (workerProcessItem s).2 = (ensure_offshore s).offshore from rfl, hens]
    rfl
  · intro c2 h2
    rw [show (workerProcessItem s).2 = (ensure_offshore s).offshore from rfl, hens] at h2
    simp only [dialOffshore, Option.some.injEq] at h2
    subst h2
    exact ⟨by simp only []; omega, rfl⟩

/-- Witness for C5: a state holding a closing connection redials, and the
item is processed over the fresh connection. -/
theorem c5_redial_on_closed_uplink_witness :
    (workerProcessItem { offshore := some { id := 0, closing := true }, nextId := 1 }).2 =
      some { id := 1, closing := false } :=
  (c5_redial_on_closed_uplink { offshore := some { id := 0, closing := true }, nextId := 1 }
    { id := 0, closing := true } rfl rfl (by decide)).1

/-! ### Claim C1: the serializer processes items one at a time in FIFO order

`ShipProxy._worker` is a single task running `await queue.get()`, then the
dequeued handler to completion, then `task_done()`, in an endless loop; the
queue is an `asyncio.Queue`, i.e. FIFO.  Its schedule is therefore the
sequential trace below: item `i` (in enqueue order) is dequeued, performs
its uplink operations, and only after its handler returns is item `i + 1`
dequeued. -/

/-- Events of the serializer schedule: item `i` is dequeued, performs an
uplink operation, or its handler returns. -/
inductive WEv (α : Type) where
  | dequeue (i : Nat)
  | uplinkOp (i : Nat) (op : α)
  | done (i : Nat)
deriving DecidableEq, Repr

/-- The trace of one item's episode: dequeue, the handler's uplink
operations in order, handler return. -/
def episodeTrace {α : Type} (i : Nat) (ops : List α) : List (WEv α) :=
  WEv.dequeue i :: ops.map (WEv.uplinkOp i) ++ [WEv.done i]

/-- The `_worker` loop from item index `i` over the remaining queue
contents: strictly sequential episodes. -/
def workerTraceFrom {α : Type} : Nat → List (List α) → List (WEv α)
  | _, [] => []
  | i, ops :: rest => episodeTrace i ops ++ workerTraceFrom (i + 1) rest

/-- The full serializer trace over the FIFO queue contents (item index =
enqueue order). -/
def workerTrace {α : Type} (items : List (List α)) : List (WEv α) :=
  workerTraceFrom 0 items

/-- Item `i` is active at a point in time (= in a trace prefix): it has been
dequeued but its handler has not yet returned. -/
def activeIn {α : Type} (i : Nat) (p : List (WEv α)) : Prop :=
  WEv.dequeue i ∈ p ∧ ¬ WEv.done i ∈ p

theorem dequeue_mem_episode {α : Type} (j s : Nat) (ops : List α)
    (h : WEv.dequeue j ∈ episodeTrace s ops) : j = s := by
  unfold episodeTrace at h
  rcases List.mem_cons.mp h with h2 | h2
  · injection h2 with h3
  · rcases List.mem_append.mp h2 with h3 | h3
    · obtain ⟨x, _, hx⟩ := List.mem_map.mp h3
      exact absurd hx (by simp)
    · rcases List.mem_cons.mp h3 with h4 | h4
      · exact absurd h4 (by simp)
      · exact absurd h4 (List.not_mem_nil _)

theorem done_mem_episode_eq {α : Type} (j s : Nat) (ops : List α)
    (h : WEv.done j ∈ episodeTrace s ops) : j = s := by
  unfold episodeTrace at h
  rcases List.mem_cons.mp h with h2 | h2
  · exact absurd h2 (by simp)
  · rcases List.mem_append.mp h2 with h3 | h3
    · obtain ⟨x, _, hx⟩ := List.mem_map.mp h3
      exact absurd hx (by simp)
    · rcases List.mem_cons.mp h3 with h4 | h4
      · injection h4 with h5
      · exact absurd h4 (List.not_mem_nil _)

theorem done_mem_episode {α : Type} (s : Nat) (ops : List α) :
    WEv.done s ∈ episodeTrace s ops := by
  simp [episodeTrace]

theorem dequeue_mem_from {α : Type} (items : List (List α)) : ∀ (s j : Nat),
    WEv.dequeue j ∈ workerTraceFrom s items → s ≤ j := by
  induction items with
  | nil =>
    intro s j h
    simp [workerTraceFrom] at h
  | cons ops rest ih =>
    intro s j h
    rw [show workerTraceFrom s (ops :: rest) =
      episodeTrace s ops ++ workerTraceFrom (s + 1) rest from rfl] at h
    rcases List.mem_append.mp h with h2 | h2
    · have := dequeue_mem_episode j s ops h2
      omega
    · have := ih (s + 1) j h2
      omega

theorem prefix_append_cases {β : Type} (a : List β) : ∀ (p b : List β), p <+: a ++ b →
    p <+: a ∨ ∃ q, p = a ++ q ∧ q <+: b := by
  induction a with
  | nil =>
    intro p b h
    exact Or.inr ⟨p, by simp, by simpa using h⟩
  | cons x a ih =>
    intro p b h
    cases p with
    | nil => exact Or.inl (List.nil_prefix)
    | cons y q =>
      rw [List.cons_append] at h
      rw [List.cons_prefix_cons] at h
      obtain ⟨rfl, hq⟩ := h
      rcases ih q b hq with h2 | ⟨q2, rfl, h2⟩
      · exact Or.inl (List.cons_prefix_cons.mpr ⟨rfl, h2⟩)
      · exact Or.inr ⟨q2, by simp, h2⟩

theorem worker_dequeue_after_done {α : Type} (items : List (List α)) : ∀ (s : Nat)
    (p : List (WEv α)), p <+: workerTraceFrom s items →
    ∀ i j, s ≤ i → i < j → WEv.dequeue j ∈ p → WEv.done i ∈ p := by
  induction items with
  | nil =>
    intro s p hp i j _ _ hdq
    rw [show workerTraceFrom s ([] : List (List α)) = [] from rfl] at hp
    rw [List.prefix_nil.mp hp] at hdq
    exact absurd hdq (List.not_mem_nil _)
  | cons ops rest ih =>
    intro s p hp i j hsi hij hdq
    rw [show workerTraceFrom s (ops :: rest) =
      episodeTrace s ops ++ workerTraceFrom (s + 1) rest from rfl] at hp
    rcases prefix_append_cases _ p _ hp with hple | ⟨q, rfl, hq⟩
    · have hj : j = s := dequeue_mem_episode j s ops (hple.subset hdq)
      omega
    · rcases List.mem_append.mp hdq with hdq2 | hdq2
      · have hj : j = s := dequeue_mem_episode j s ops hdq2
        omega
      · by_cases hi : i = s
        · subst hi
          exact List.mem_append.mpr (Or.inl (done_mem_episode i ops))
        · have hs1 : s + 1 ≤ i := by omega
          exact List.mem_append.mpr (Or.inr (ih (s + 1) q hq i j hs1 hij hdq2))

theorem worker_done_in_order {α : Type} (items : List (List α)) : ∀ (s : Nat)
    (p : List (WEv α)), p <+: workerTraceFrom s items →
    ∀ i j, s ≤ i → i < j → WEv.done j ∈ p → WEv.done i ∈ p := by
  induction items with
  | nil =>
    intro s p hp i j _ _ hdn
    rw [show workerTraceFrom s ([] : List (List α)) = [] from rfl] at hp
    rw [List.prefix_nil.mp hp] at hdn
    exact absurd hdn (List.not_mem_nil _)
  | cons ops rest ih =>
    intro s p hp i j hsi hij hdn
    rw [show workerTraceFrom s (ops :: rest) =
      episodeTrace s ops ++ workerTraceFrom (s + 1) rest from rfl] at hp
    rcases prefix_append_cases _ p _ hp with hple | ⟨q, rfl, hq⟩
    · have hj : j = s := done_mem_episode_eq j s ops (hple.subset hdn)
      omega
    · rcases List.mem_append.mp hdn with hdn2 | hdn2
      · have hj : j = s := done_mem_episode_eq j s ops hdn2
        omega
      · by_cases hi : i = s
        · subst hi
          exact List.mem_append.mpr (Or.inl (done_mem_episode i ops))
        · have hs1 : s + 1 ≤ i := by omega
          exact List.mem_append.mpr (Or.inr (ih (s + 1) q hq i j hs1 hij hdn2))

/-- C1: on every prefix of the serializer's trace (i.e. at every point in
time), (a) a later item is dequeued only after every earlier item's handler
has returned — in particular item `i + 1` only after item `i` — so work
items are taken strictly one at a time in FIFO enqueue order; (b) at most
one item is active, so at most one request or tunnel is on the uplink; and
(c) handlers return in enqueue order, so requests complete in enqueue
order. -/
theorem c1_serializer_fifo {α : Type} (items : List (List α)) (p : List (WEv α))
    (hp : p <+: workerTrace items) :
    (∀ i j, i < j → WEv.dequeue j ∈ p → WEv.done i ∈ p) ∧
    (∀ i j, activeIn i p → activeIn j p → i = j) ∧
    (∀ i j, i < j → WEv.done j ∈ p → WEv.done i ∈ p) := by
  refine ⟨?_, ?_, ?_⟩
  · intro i j hij hdq
    exact worker_dequeue_after_done items 0 p hp i j (Nat.zero_le i) hij hdq
  · intro i j hi hj
    by_contra hne
    rcases Nat.lt_or_ge i j with hlt | hge
    · exact hi.2 (worker_dequeue_after_done items 0 p hp i j (Nat.zero_le i) hlt hj.1)
    · have hlt : j < i := by omega
      exact hj.2 (worker_dequeue_after_done items 0 p hp j i (Nat.zero_le j) hlt hi.1)
  · intro i j hij hdn
    exact worker_done_in_order items 0 p hp i j (Nat.zero_le i) hij hdn

/-- Witness for C1 on a concrete two-item queue and the trace prefix in
which item 1 has just been dequeued: item 0 is already done. -/
theorem c1_serializer_fifo_witness :
    WEv.done 0 ∈ [WEv.dequeue 0, WEv.uplinkOp 0 7, WEv.done 0, WEv.dequeue 1] :=
  (c1_serializer_fifo [[7], [8]]
    [WEv.dequeue 0, WEv.uplinkOp 0 7, WEv.done 0, WEv.dequeue 1]
    ⟨[WEv.uplinkOp 1 8, WEv.done 1], rfl⟩).1 0 1 (by omega) (by decide)

/-! ### Claim C10: the worker survives handler exceptions -/

/-- Running one dequeued item inside the worker's `try`: first
`ensure_offshore` (the dial may raise), then the handler itself (which may
raise); the first exception aborts the rest of the `try` block. -/
def runItem {ε α : Type} (dial : Except ε Unit) (handler : Except ε α) : Except ε α :=
  match dial with
  | .error e => .error e
  | .ok _ => handler

/-- What one `_worker` iteration leaves behind for an item: whether the
`try` block raised (the `except` prints and swallows it), and that
`queue.task_done()` ran (it sits after the `try`/`except`). -/
structure ItemOutcome where
  failed : Bool
  taskDone : Bool
deriving DecidableEq, Repr

/-- One `_worker` iteration on a dequeued item. -/
def workerStep {ε α : Type} (it : Except ε Unit × Except ε α) : ItemOutcome :=
  match runItem it.1 it.2 with
  | .ok _ => { failed := false, taskDone := true }
  | .error _ => { failed := true, taskDone := true }

/-- The worker loop over the queued items in FIFO order. -/
def workerRun {ε α : Type} : List (Except ε Unit × Except ε α) → List ItemOutcome
  | [] => []
  | it :: rest => workerStep it :: workerRun rest

theorem workerRun_append {ε α : Type} (a b : List (Except ε Unit × Except ε α)) :
    workerRun (a ++ b) = workerRun a ++ workerRun b := by
  induction a with
  | nil => rfl
  | cons it t ih => simp [workerRun, ih]

/-- C10: the worker loop survives every exception an item raises — whether
from the uplink dial in `ensure_offshore` or from the handler itself: the
failing item is caught and marked done, and every queued item before and
after it is still processed, each one marked done. -/
theorem c10_worker_survives_exceptions {ε α : Type}
    (pre post : List (Except ε Unit × Except ε α))
    (bad : Except ε Unit × Except ε α) (e : ε)
    (hbad : runItem bad.1 bad.2 = Except.error e) :
    workerRun (pre ++ bad :: post) =
      workerRun pre ++ { failed := true, taskDone := true } :: workerRun post ∧
    (workerRun (pre ++ bad :: post)).length = pre.length + 1 + post.length ∧
    ∀ o ∈ workerRun (pre ++ bad :: post), o.taskDone = true := by
  have hstep : workerStep bad = { failed := true, taskDone := true } := by
    unfold workerStep
    rw [hbad]
  have hlen : ∀ (l : List (Except ε Unit × Except ε α)), (workerRun l).length = l.length := by
    intro l
    induction l with
    | nil => rfl
    | cons it t ih => simp [workerRun, ih]
  have hdone : ∀ (l : List (Except ε Unit × Except ε α)), ∀ o ∈ workerRun l,
      o.taskDone = true := by
    intro l
    induction l with
    | nil => intro o ho; exact absurd ho (List.not_mem_nil o)
    | cons it t ih =>
      intro o ho
      rcases List.mem_cons.mp ho with rfl | ho2
      · unfold workerStep
        cases runItem it.1 it.2 <;> rfl
      · exact ih o ho2
  refine ⟨?_, ?_, hdone _⟩
  · rw [workerRun_append]
    rw [show workerRun (bad :: post) = workerStep bad :: workerRun post from rfl, hstep]
  · rw [hlen]
    simp only [List.length_append, List.length_cons]
    omega

/-- Witness for C10 on a concrete queue whose middle item's dial raises:
all three items are processed and marked done, the middle one as failed. -/
theorem c10_worker_survives_exceptions_witness :
    workerRun [((Except.ok () : Except String Unit), (Except.ok 1 : Except String Nat)),
      ((Except.error "dial refused" : Except String Unit), (Except.ok 2 : Except String Nat)),
      ((Except.ok () : Except String Unit), (Except.ok 3 : Except String Nat))] =
      [{ failed := false, taskDone := true }, { failed := true, taskDone := true },
        { failed := false, taskDone := true }] :=
  (c10_worker_survives_exceptions
    [((Except.ok () : Except String Unit), (Except.ok 1 : Except String Nat))]
    [((Except.ok () : Except String Unit), (Except.ok 3 : Except String Nat))]
    ((Except.error "dial refused" : Except String Unit), (Except.ok 2 : Except String Nat))
    "dial refused" rfl).1
